import Mathlib

/-!
# Verification of the `agcwd` crate (AGCWD contrast enhancement)

Shallow embedding of `src/lib.rs` and `src/color_format.rs`.

Modelling conventions:
* `u8`/`usize` arithmetic is embedded as `ℕ` (all the intermediate `usize`
  values in the source are small, and the final `as u8` casts are embedded
  as `% 256`);
* `i32` arithmetic (the YUV conversions) is embedded as `ℤ`, with the
  arithmetic right shift `>> 8` embedded as `Int.fdiv · 256` (floor
  division, which is what an arithmetic shift computes) and the
  `as u8` cast embedded as `Int.emod · 256`;
* `f32` arithmetic is embedded as exact arithmetic in `ℚ`.  The single
  transcendental operation `f32::powf` is kept as an explicit function
  parameter `pw : ℚ → ℚ → ℚ` of the pipeline; theorems assume only the
  IEEE-754 facts about `powf` that the proof actually needs
  (`powf x 0 = 1`, `powf 0 y = 0` for `y > 0`, monotonicity, …), and the
  concrete instance `powQ` defined below satisfies all of them, so every
  theorem can be instantiated.  `f32::EPSILON` is `2⁻²³` exactly.
  In `ℚ` the division `x / 0` yields `0` where `f32` yields `NaN`
  (this only matters for the degenerate cases analysed explicitly below);
  all other divisions that occur are by nonzero denominators.
* `f32::round` followed by `as u8` is embedded as `roundU8`
  (round half away from zero, then saturate into `[0, 255]`; on the
  nonnegative inputs produced by the pipeline both agree with
  `⌊x + 1/2⌋` clamped to `255`).
-/

namespace Agcwd

/-! ## Color conversions (`rgb_to_hsv`, `hsv_to_rgb` of `lib.rs` /
`color_format.rs`; the two copies differ only in their `debug_assert!`). -/

/-- `rgb_to_hsv` from the source: `usize` arithmetic on the three channels,
final `as u8` casts embedded as `% 256`. -/
def rgb_to_hsv (r g b : ℕ) : ℕ × ℕ × ℕ :=
  let mx := max r (max g b)
  let mn := min r (min g b)
  let n := mx - mn
  let s := if mx = 0 then 0 else n * 255 / mx
  let v := mx
  let h :=
    (if n = 0 then 0
     else if mx = r then
       if g < b then (6 * 255) + (g * 255 / n) - (b * 255 / n)
       else (g - b) * 255 / n
     else if mx = g then 2 * 255 + b * 255 / n - r * 255 / n
     else 4 * 255 + r * 255 / n - g * 255 / n) / 6
  (h % 256, s % 256, v % 256)

/-- The scrutinee of the `match` in `hsv_to_rgb`: the hue sector `h6 / 255`. -/
def hsv_sector (h : ℕ) : ℕ := (h * 6) / 255

/-- In `hsv_to_rgb`, the catch-all `match` arm is taken exactly when the
sector is none of `1`–`5` (and `s > 0`). -/
def hsv_catch_all (h : ℕ) : Prop :=
  hsv_sector h ≠ 1 ∧ hsv_sector h ≠ 2 ∧ hsv_sector h ≠ 3 ∧
  hsv_sector h ≠ 4 ∧ hsv_sector h ≠ 5

instance (h : ℕ) : Decidable (hsv_catch_all h) := by
  unfold hsv_catch_all; infer_instance

/-- The assertion `debug_assert!(n == 1 || n == 6)` in the catch-all arm of
`hsv_to_rgb` in `lib.rs`, as a predicate on the sector value. -/
def lib_debug_assert (n : ℕ) : Prop := n = 1 ∨ n = 6

instance (n : ℕ) : Decidable (lib_debug_assert n) := by
  unfold lib_debug_assert; infer_instance

/-- The assertion `debug_assert!(n == 0 || n == 6, ...)` in the catch-all arm
of `hsv_to_rgb` in `color_format.rs`, as a predicate on the sector value. -/
def color_format_debug_assert (n : ℕ) : Prop := n = 0 ∨ n = 6

instance (n : ℕ) : Decidable (color_format_debug_assert n) := by
  unfold color_format_debug_assert; infer_instance

/-- `hsv_to_rgb` from the source (`usize` arithmetic; the `match` on
`h6 / 255` becomes an `if`-cascade whose final branch is the catch-all arm;
final `as u8` casts embedded as `% 256`). -/
def hsv_to_rgb (h s v : ℕ) : ℕ × ℕ × ℕ :=
  if s = 0 then (v, v, v)
  else
    let h6 := h * 6
    let f := h6 % 255
    let m := h6 / 255
    let r := v
    let g := v
    let b := v
    let rgb :=
      if m = 1 then
        (r * (255 * 255 - s * f) / (255 * 255), g, b * (255 - s) / 255)
      else if m = 2 then
        (r * (255 - s) / 255, g, b * (255 * 255 - s * (255 - f)) / (255 * 255))
      else if m = 3 then
        (r * (255 - s) / 255, g * (255 * 255 - s * f) / (255 * 255), b)
      else if m = 4 then
        (r * (255 * 255 - s * (255 - f)) / (255 * 255), g * (255 - s) / 255, b)
      else if m = 5 then
        (r, g * (255 - s) / 255, b * (255 * 255 - s * f) / (255 * 255))
      else
        (r, g * (255 * 255 - s * (255 - f)) / (255 * 255), b * (255 - s) / 255)
    (rgb.1 % 256, rgb.2.1 % 256, rgb.2.2 % 256)

/-- `to_u8` from `yuv_to_rgb`: clamp an `i32` into `[0, 255]`. -/
def to_u8 (x : ℤ) : ℕ := (min (max x 0) 255).toNat

/-- `yuv_to_rgb` from `color_format.rs` (`i32` arithmetic; `>> 8` is an
arithmetic shift, i.e. floor division by `256`, which on `ℤ` is `/ 256`
since `/` is Euclidean division and the divisor is positive). -/
def yuv_to_rgb (y u v : ℕ) : ℕ × ℕ × ℕ :=
  let c : ℤ := (y : ℤ) - 16
  let d : ℤ := (u : ℤ) - 128
  let e : ℤ := (v : ℤ) - 128
  let r := (298 * c + 409 * e + 128) / 256
  let g := (298 * c - 100 * d - 208 * e + 128) / 256
  let b := (298 * c + 516 * d + 128) / 256
  (to_u8 r, to_u8 g, to_u8 b)

/-- `rgb_to_yuv` from `color_format.rs` (`i32` arithmetic; the final
wrapping `as u8` casts are embedded as `% 256`, again Euclidean). -/
def rgb_to_yuv (r g b : ℕ) : ℕ × ℕ × ℕ :=
  let r : ℤ := (r : ℤ)
  let g : ℤ := (g : ℤ)
  let b : ℤ := (b : ℤ)
  let y := (66 * r + 129 * g + 25 * b + 128) / 256 + 16
  let u := (-38 * r - 74 * g + 112 * b + 128) / 256 + 128
  let v := (112 * r - 94 * g - 18 * b) / 256 + 128
  ((y % 256).toNat, (u % 256).toNat, (v % 256).toNat)

/-! ## The pixel view (`Image<N>` of `lib.rs`)

A buffer is a `List ℕ` of bytes.  `chunks_exact(N)` yields the complete
`N`-byte chunks and ignores the trailing `len % N` bytes; it is embedded
with an explicit fuel argument (the buffer length) so that it is
structurally recursive and kernel-computable. -/

/-- Fuel-driven worker for `chunksExact`. -/
def chunksExactAux (N : ℕ) : ℕ → List ℕ → List (List ℕ)
  | 0, _ => []
  | fuel + 1, l =>
    if N = 0 ∨ l.length < N then []
    else l.take N :: chunksExactAux N fuel (l.drop N)

/-- `slice::chunks_exact(N)`: the complete `N`-byte chunks of the buffer. -/
def chunksExact (N : ℕ) (l : List ℕ) : List (List ℕ) :=
  chunksExactAux N l.length l

/-- `Image::new`: the pixel count is `pixels.len() / N`. -/
def imageLen (N : ℕ) (l : List ℕ) : ℕ := l.length / N

/-- `Image::intensities`: per pixel, the brightness
`max(p[0], max(p[1], p[2]))`. -/
def intensities (N : ℕ) (l : List ℕ) : List ℕ :=
  (chunksExact N l).map (fun p => max (p.getD 0 0) (max (p.getD 1 0) (p.getD 2 0)))

/-- Fuel-driven worker for `update_pixels`. -/
def updatePixelsAux (N : ℕ) (f : ℕ → ℕ → ℕ → ℕ × ℕ × ℕ) : ℕ → List ℕ → List ℕ
  | 0, l => l
  | fuel + 1, l =>
    if N = 0 ∨ l.length < N then l
    else
      let t := f (l.getD 0 0) (l.getD 1 0) (l.getD 2 0)
      t.1 :: t.2.1 :: t.2.2 :: ((l.take N).drop 3 ++ updatePixelsAux N f fuel (l.drop N))

/-- `Image::update_pixels`: rewrite `p[0], p[1], p[2]` of every complete
`N`-byte chunk through `f`, leaving byte `3` of an RGBA chunk and the
trailing `len % N` bytes untouched. -/
def update_pixels (N : ℕ) (f : ℕ → ℕ → ℕ → ℕ × ℕ × ℕ) (l : List ℕ) : List ℕ :=
  updatePixelsAux N f l.length l

/-! ## The numeric pipeline (`Pdf`, `Cdf`, `IntensityTransformationCurve`) -/

/-- `f32::EPSILON` is `2⁻²³`. -/
def f32Epsilon : ℚ := 1 / 8388608

/-- The histogram built by `Pdf::new`: counter `i` is the number of pixels
of brightness `i`. -/
def histogram (N : ℕ) (l : List ℕ) (i : ℕ) : ℕ :=
  ((intensities N l).filter (fun x => x = i)).length

/-- `Pdf::new`: each histogram counter divided by the pixel count
(`image.len() as f32`).  For an empty image this divides by zero: `NaN`
in `f32`, `0` in this exact model. -/
def pdf (N : ℕ) (l : List ℕ) (i : ℕ) : ℚ :=
  (histogram N l i : ℚ) / (imageLen N l : ℚ)

/-- The `max_intensity` scan of `to_weighting_distribution`: start from
`pdf[0]`, fold `max` over `pdf[1..=255]`. -/
def pdfMax (p : ℕ → ℚ) : ℚ :=
  ((List.range 255).map (fun i => p (i + 1))).foldl max (p 0)

/-- The `min_intensity` scan of `to_weighting_distribution`. -/
def pdfMin (p : ℕ → ℚ) : ℚ :=
  ((List.range 255).map (fun i => p (i + 1))).foldl min (p 0)

/-- `Pdf::to_weighting_distribution`, with `f32::powf` abstracted as `pw`. -/
def to_weighting_distribution (pw : ℚ → ℚ → ℚ) (alpha : ℚ) (p : ℕ → ℚ) (i : ℕ) : ℚ :=
  pdfMax p * pw ((p i - pdfMin p) / (pdfMax p - pdfMin p + f32Epsilon)) alpha

/-- The running sum of `Cdf::new` after processing entries `0..=i`. -/
def cdfSum (p : ℕ → ℚ) (i : ℕ) : ℚ :=
  ((List.range (i + 1)).map p).sum

/-- `Cdf::new`: the running sum over the (weighted) pdf, each entry divided
by the final total `cdfSum p 255`.  For an all-zero weighted pdf this
divides by zero: `NaN` in `f32`, `0` in this exact model. -/
def cdf (p : ℕ → ℚ) (i : ℕ) : ℚ :=
  cdfSum p i / cdfSum p 255

/-- `f32::round` (half away from zero) followed by the saturating `as u8`
cast, on the nonnegative values produced by the curve builder. -/
def roundU8 (x : ℚ) : ℕ := (min 255 ⌊x + 1 / 2⌋).toNat

/-- `IntensityTransformationCurve::new`:
`curve[i] = (255.0 * (i as f32 / 255.0).powf(1.0 - cdf[i])).round() as u8`. -/
def intensity_transformation_curve (pw : ℚ → ℚ → ℚ) (c : ℕ → ℚ) (i : ℕ) : ℕ :=
  roundU8 (255 * pw ((i : ℚ) / 255) (1 - c i))

/-- The per-pixel rewrite closure of `Agcwd::enhance_image`. -/
def enhancePixel (curve : ℕ → ℕ) (r g b : ℕ) : ℕ × ℕ × ℕ :=
  let hsv := rgb_to_hsv r g b
  hsv_to_rgb hsv.1 hsv.2.1 (curve hsv.2.2)

/-- `Agcwd::enhance_image::<N>` with `f32::powf` abstracted as `pw` and
`alpha` the `Agcwd` parameter. -/
def enhance_image (pw : ℚ → ℚ → ℚ) (alpha : ℚ) (N : ℕ) (pixels : List ℕ) : List ℕ :=
  let p := pdf N pixels
  let pdf_w := to_weighting_distribution pw alpha p
  let cdf_w := cdf pdf_w
  let curve := intensity_transformation_curve pw cdf_w
  update_pixels N (enhancePixel curve) pixels

/-- `Agcwd::enhance_rgb_image`. -/
def enhance_rgb_image (pw : ℚ → ℚ → ℚ) (alpha : ℚ) (pixels : List ℕ) : List ℕ :=
  enhance_image pw alpha 3 pixels

/-- `Agcwd::enhance_rgba_image`. -/
def enhance_rgba_image (pw : ℚ → ℚ → ℚ) (alpha : ℚ) (pixels : List ℕ) : List ℕ :=
  enhance_image pw alpha 4 pixels

/-! ## A concrete model of `f32::powf`

`powQ` is a simple computable function satisfying every IEEE-754 fact
about `powf` that the theorems below assume: `powQ x 0 = 1`,
`powQ 0 y = 0` for `y ≠ 0`, positivity on positive bases, nonnegativity,
monotonicity in the base, antitonicity in the exponent on bases in
`[0, 1]`, and `powQ x y ≤ 1` for `x ≤ 1`.  It is used to instantiate the
abstract `pw` parameter in the closed witnesses and counterexamples. -/

/-- A computable stand-in for `f32::powf` used to instantiate witnesses. -/
def powQ (x y : ℚ) : ℚ := if y = 0 then 1 else if x ≤ 0 then 0 else x

/-! ## The abstract interface assumed of `f32::powf`

These are the only facts about `powf` the development uses.  They hold of
the mathematical function `(x, y) ↦ x ^ y` on the argument ranges the
pipeline produces (bases in `[0, 1]`, exponents in `[0, 1]`), and `powQ`
satisfies all of them, so every theorem below can be instantiated. -/

structure PowfModel (pw : ℚ → ℚ → ℚ) : Prop where
  zero_exponent : ∀ x, pw x 0 = 1
  zero_base : ∀ y, 0 < y → pw 0 y = 0
  pos : ∀ x y, 0 < x → x ≤ 1 → 0 < y → y ≤ 1 → 0 < pw x y
  nonneg : ∀ x y, 0 ≤ x → 0 ≤ pw x y
  mono : ∀ x x' y, 0 ≤ x → x ≤ x' → pw x y ≤ pw x' y
  anti : ∀ x y y', 0 ≤ x → x ≤ 1 → 0 ≤ y' → y' ≤ y → pw x y ≤ pw x y'

/-- The spike value of the flat-image weighting distribution:
`pw (1 / (1 + ε)) alpha` with the exact rational `1 / (1 + 2⁻²³)`. -/
def flatSpike (pw : ℚ → ℚ → ℚ) (alpha : ℚ) : ℚ := pw (8388608 / 8388609) alpha

/-- A 256-pixel RGB buffer whose pixel `i` is `(i, i, i)`: its histogram
is exactly uniform. -/
def uniformBuf : List ℕ := ((List.range 256).map (fun i => [i, i, i])).flatten

theorem powQ_zero_exponent (x : ℚ) : powQ x 0 = 1 := by simp [powQ]

theorem powQ_zero_base {y : ℚ} (hy : y ≠ 0) : powQ 0 y = 0 := by
  simp [powQ, hy]

theorem powQ_pos {x : ℚ} (hx : 0 < x) (y : ℚ) : 0 < powQ x y := by
  unfold powQ
  split
  · exact one_pos
  · rw [if_neg (not_le.mpr hx)]; exact hx

theorem powQ_nonneg (x y : ℚ) : 0 ≤ powQ x y := by
  unfold powQ
  split
  · exact zero_le_one
  · split
    · exact le_refl 0
    · next h => exact le_of_lt (not_le.mp h)

theorem powQ_mono {x x' : ℚ} (y : ℚ) (hxx : x ≤ x') :
    powQ x y ≤ powQ x' y := by
  unfold powQ
  split
  · exact le_refl 1
  · rcases le_or_lt x 0 with h0 | h0
    · rw [if_pos h0]
      split
      · exact le_refl 0
      · next h => exact le_of_lt (not_le.mp h)
    · rw [if_neg (not_le.mpr h0), if_neg (not_le.mpr (lt_of_lt_of_le h0 hxx))]
      exact hxx

theorem powQ_anti {x y y' : ℚ} (hx1 : x ≤ 1) (hy' : 0 ≤ y')
    (hyy : y' ≤ y) : powQ x y ≤ powQ x y' := by
  by_cases hy : y = 0
  · have h0 : y' = 0 := le_antisymm (hy ▸ hyy) hy'
    simp [powQ, hy, h0]
  · by_cases hy0 : y' = 0
    · simp only [powQ, if_neg hy, if_pos hy0]
      split
      · exact zero_le_one
      · exact hx1
    · simp [powQ, hy, hy0]

theorem powQ_le_one {x : ℚ} (hx : x ≤ 1) (y : ℚ) : powQ x y ≤ 1 := by
  unfold powQ
  split
  · exact le_refl 1
  · split
    · exact zero_le_one
    · exact hx

/-! ## Generic list lemmas (folds of `max`/`min`, indicator sums) -/

theorem le_foldl_max_init {α : Type _} [LinearOrder α] :
    ∀ (l : List α) (init : α), init ≤ l.foldl max init := by
  intro l
  induction l with
  | nil => intro init; exact le_refl init
  | cons a t ih =>
    intro init
    calc init ≤ max init a := le_max_left _ _
    _ ≤ t.foldl max (max init a) := ih _

theorem foldl_max_le {α : Type _} [LinearOrder α] :
    ∀ (l : List α) (init B : α), init ≤ B → (∀ x ∈ l, x ≤ B) →
      l.foldl max init ≤ B := by
  intro l
  induction l with
  | nil => intro init B h _; exact h
  | cons a t ih =>
    intro init B h hm
    exact ih _ _ (max_le h (hm a (List.mem_cons_self a t)))
      (fun x hx => hm x (List.mem_cons_of_mem a hx))

theorem le_foldl_max_of_mem {α : Type _} [LinearOrder α] :
    ∀ (l : List α) (init x : α), x ∈ l → x ≤ l.foldl max init := by
  intro l
  induction l with
  | nil => intro _ x hx; cases hx
  | cons a t ih =>
    intro init x hx
    rcases List.mem_cons.mp hx with h | h
    · subst h
      calc x ≤ max init x := le_max_right _ _
      _ ≤ t.foldl max (max init x) := le_foldl_max_init _ _
    · exact ih _ x h

theorem foldl_min_le_init {α : Type _} [LinearOrder α] :
    ∀ (l : List α) (init : α), l.foldl min init ≤ init := by
  intro l
  induction l with
  | nil => intro init; exact le_refl init
  | cons a t ih =>
    intro init
    calc t.foldl min (min init a) ≤ min init a := ih _
    _ ≤ init := min_le_left _ _

theorem le_foldl_min {α : Type _} [LinearOrder α] :
    ∀ (l : List α) (init B : α), B ≤ init → (∀ x ∈ l, B ≤ x) →
      B ≤ l.foldl min init := by
  intro l
  induction l with
  | nil => intro init B h _; exact h
  | cons a t ih =>
    intro init B h hm
    exact ih _ _ (le_min h (hm a (List.mem_cons_self a t)))
      (fun x hx => hm x (List.mem_cons_of_mem a hx))

theorem foldl_min_le_of_mem {α : Type _} [LinearOrder α] :
    ∀ (l : List α) (init x : α), x ∈ l → l.foldl min init ≤ x := by
  intro l
  induction l with
  | nil => intro _ x hx; cases hx
  | cons a t ih =>
    intro init x hx
    rcases List.mem_cons.mp hx with h | h
    · subst h
      calc t.foldl min (min init x) ≤ min init x := foldl_min_le_init _ _
      _ ≤ x := min_le_right _ _
    · exact ih _ x h

theorem sum_map_range_indicator (t : ℚ) :
    ∀ (n c : ℕ), c < n →
      (((List.range n).map (fun i => if i = c then t else 0)).sum = t) := by
  intro n
  induction n with
  | zero => intro c hc; cases hc
  | succ m ih =>
    intro c hc
    rw [List.range_succ, List.map_append, List.sum_append]
    rcases Nat.lt_succ_iff_lt_or_eq.mp hc with h | h
    · rw [ih c h]
      have : m ≠ c := Nat.ne_of_gt h
      simp [this]
    · subst h
      have hz : (((List.range c).map (fun i => if i = c then t else 0)).sum = 0) := by
        apply List.sum_eq_zero
        intro x hx
        rcases List.mem_map.mp hx with ⟨i, hi, rfl⟩
        have : i ≠ c := Nat.ne_of_lt (List.mem_range.mp hi)
        simp [this]
      simp [hz]

theorem sum_map_range_zero {p : ℕ → ℚ} (n : ℕ) (h : ∀ i < n, p i = 0) :
    ((List.range n).map p).sum = 0 := by
  apply List.sum_eq_zero
  intro x hx
  rcases List.mem_map.mp hx with ⟨i, hi, rfl⟩
  exact h i (List.mem_range.mp hi)

theorem sum_map_range_nonneg {p : ℕ → ℚ} (n : ℕ) (h : ∀ i < n, 0 ≤ p i) :
    0 ≤ ((List.range n).map p).sum := by
  apply List.sum_nonneg
  intro x hx
  rcases List.mem_map.mp hx with ⟨i, hi, rfl⟩
  exact h i (List.mem_range.mp hi)

theorem sum_map_range_mono {p : ℕ → ℚ} (hp : ∀ i, 0 ≤ p i) :
    ∀ {m n : ℕ}, m ≤ n →
      ((List.range m).map p).sum ≤ ((List.range n).map p).sum := by
  intro m n hmn
  obtain ⟨k, rfl⟩ := Nat.exists_eq_add_of_le hmn
  rw [List.range_add, List.map_append, List.sum_append, List.map_map]
  have : 0 ≤ (((List.range k).map (p ∘ fun x => m + x)).sum) := by
    apply List.sum_nonneg
    intro x hx
    rcases List.mem_map.mp hx with ⟨i, _, rfl⟩
    exact hp _
  linarith

theorem powQ_model : PowfModel powQ where
  zero_exponent := powQ_zero_exponent
  zero_base := fun _y hy => powQ_zero_base (ne_of_gt hy)
  pos := fun _ y hx _ _ _ => powQ_pos hx y
  nonneg := fun x y _ => powQ_nonneg x y
  mono := fun _ _ y _ hxx => powQ_mono y hxx
  anti := fun _ _ _ _ hx1 hy' hyy => powQ_anti hx1 hy' hyy

/-! ## Bounds along the pipeline -/

theorem pdf_nonneg (N : ℕ) (l : List ℕ) (i : ℕ) : 0 ≤ pdf N l i :=
  div_nonneg (Nat.cast_nonneg _) (Nat.cast_nonneg _)

theorem le_pdfMax (p : ℕ → ℚ) {i : ℕ} (hi : i ≤ 255) : p i ≤ pdfMax p := by
  unfold pdfMax
  rcases Nat.eq_zero_or_pos i with h | h
  · subst h; exact le_foldl_max_init _ _
  · apply le_foldl_max_of_mem
    exact List.mem_map.mpr ⟨i - 1, List.mem_range.mpr (by omega), by
      congr 1; omega⟩

theorem pdfMin_le (p : ℕ → ℚ) {i : ℕ} (hi : i ≤ 255) : pdfMin p ≤ p i := by
  unfold pdfMin
  rcases Nat.eq_zero_or_pos i with h | h
  · subst h; exact foldl_min_le_init _ _
  · apply foldl_min_le_of_mem
    exact List.mem_map.mpr ⟨i - 1, List.mem_range.mpr (by omega), by
      congr 1; omega⟩

theorem pdfMin_le_pdfMax (p : ℕ → ℚ) : pdfMin p ≤ pdfMax p :=
  (pdfMin_le p (by norm_num : (0 : ℕ) ≤ 255)).trans
    (le_pdfMax p (by norm_num : (0 : ℕ) ≤ 255))

theorem pdfMax_le (p : ℕ → ℚ) {B : ℚ} (h : ∀ i ≤ 255, p i ≤ B) : pdfMax p ≤ B := by
  unfold pdfMax
  apply foldl_max_le
  · exact h 0 (by norm_num)
  · intro x hx
    rcases List.mem_map.mp hx with ⟨i, hi, rfl⟩
    exact h (i + 1) (by have := List.mem_range.mp hi; omega)

theorem le_pdfMin (p : ℕ → ℚ) {B : ℚ} (h : ∀ i ≤ 255, B ≤ p i) : B ≤ pdfMin p := by
  unfold pdfMin
  apply le_foldl_min
  · exact h 0 (by norm_num)
  · intro x hx
    rcases List.mem_map.mp hx with ⟨i, hi, rfl⟩
    exact h (i + 1) (by have := List.mem_range.mp hi; omega)

theorem pdfMin_nonneg {p : ℕ → ℚ} (hp : ∀ i ≤ 255, 0 ≤ p i) : 0 ≤ pdfMin p :=
  le_pdfMin p hp

theorem wd_range_pos (p : ℕ → ℚ) : 0 < pdfMax p - pdfMin p + f32Epsilon := by
  have h := pdfMin_le_pdfMax p
  have he : (0 : ℚ) < f32Epsilon := by norm_num [f32Epsilon]
  linarith

theorem wd_arg_nonneg (p : ℕ → ℚ) {i : ℕ} (hi : i ≤ 255) :
    0 ≤ (p i - pdfMin p) / (pdfMax p - pdfMin p + f32Epsilon) := by
  apply div_nonneg
  · have := pdfMin_le p hi
    linarith
  · exact le_of_lt (wd_range_pos p)

theorem wd_arg_le_one (p : ℕ → ℚ) {i : ℕ} (hi : i ≤ 255) :
    (p i - pdfMin p) / (pdfMax p - pdfMin p + f32Epsilon) ≤ 1 := by
  rw [div_le_one (wd_range_pos p)]
  have h1 := le_pdfMax p hi
  have he : (0 : ℚ) < f32Epsilon := by norm_num [f32Epsilon]
  linarith

theorem wd_nonneg {pw : ℚ → ℚ → ℚ} (hpw : PowfModel pw) (alpha : ℚ)
    {p : ℕ → ℚ} (hp : ∀ i ≤ 255, 0 ≤ p i) {i : ℕ} (hi : i ≤ 255) :
    0 ≤ to_weighting_distribution pw alpha p i := by
  unfold to_weighting_distribution
  apply mul_nonneg
  · exact (hp 0 (by norm_num)).trans (le_pdfMax p (by norm_num : (0:ℕ) ≤ 255))
  · exact hpw.nonneg _ _ (wd_arg_nonneg p hi)

theorem cdfSum_nonneg {p : ℕ → ℚ} (hp : ∀ i ≤ 255, 0 ≤ p i) {i : ℕ}
    (hi : i ≤ 255) : 0 ≤ cdfSum p i := by
  apply sum_map_range_nonneg
  intro j hj
  exact hp j (by omega)

theorem cdfSum_succ (p : ℕ → ℚ) (n : ℕ) :
    cdfSum p (n + 1) = cdfSum p n + p (n + 1) := by
  unfold cdfSum
  rw [List.range_succ, List.map_append, List.sum_append]
  simp

theorem cdfSum_mono {p : ℕ → ℚ} (hp : ∀ i ≤ 255, 0 ≤ p i) {i j : ℕ}
    (hij : i ≤ j) (hj : j ≤ 255) : cdfSum p i ≤ cdfSum p j := by
  obtain ⟨k, hk⟩ := Nat.exists_eq_add_of_le hij
  subst hk
  clear hij
  induction k with
  | zero => exact le_refl _
  | succ m ih =>
    have h1 : i + m ≤ 255 := by omega
    have h2 := ih (by omega)
    have h3 : 0 ≤ p (i + m + 1) := hp _ (by omega)
    rw [show i + (m + 1) = (i + m) + 1 by omega, cdfSum_succ]
    linarith

theorem cdf_nonneg {p : ℕ → ℚ} (hp : ∀ i ≤ 255, 0 ≤ p i) {i : ℕ}
    (hi : i ≤ 255) : 0 ≤ cdf p i := by
  unfold cdf
  rcases eq_or_lt_of_le (cdfSum_nonneg hp (le_refl 255)) with h | h
  · rw [← h, div_zero]
  · exact div_nonneg (cdfSum_nonneg hp hi) (le_of_lt h)

theorem cdf_le_one {p : ℕ → ℚ} (hp : ∀ i ≤ 255, 0 ≤ p i) {i : ℕ}
    (hi : i ≤ 255) : cdf p i ≤ 1 := by
  unfold cdf
  rcases eq_or_lt_of_le (cdfSum_nonneg hp (le_refl 255)) with h | h
  · rw [← h, div_zero]; norm_num
  · rw [div_le_one h]
    exact cdfSum_mono hp hi (le_refl 255)

theorem cdf_mono {p : ℕ → ℚ} (hp : ∀ i ≤ 255, 0 ≤ p i) {i j : ℕ}
    (hij : i ≤ j) (hj : j ≤ 255) : cdf p i ≤ cdf p j := by
  unfold cdf
  rcases eq_or_lt_of_le (cdfSum_nonneg hp (le_refl 255)) with h | h
  · rw [← h, div_zero, div_zero]
  · exact (div_le_div_iff_of_pos_right h).mpr (cdfSum_mono hp hij hj)

theorem cdf_last {p : ℕ → ℚ} (h : cdfSum p 255 ≠ 0) : cdf p 255 = 1 :=
  div_self h

theorem roundU8_le_255 (x : ℚ) : roundU8 x ≤ 255 := by
  unfold roundU8
  rcases le_total (255 : ℤ) ⌊x + 1 / 2⌋ with h | h
  · rw [min_eq_left h]; norm_num
  · rw [min_eq_right h]
    omega

theorem roundU8_mono {x y : ℚ} (h : x ≤ y) : roundU8 x ≤ roundU8 y := by
  unfold roundU8
  have hf : ⌊x + 1 / 2⌋ ≤ ⌊y + 1 / 2⌋ := Int.floor_le_floor (by linarith)
  have : min 255 ⌊x + 1 / 2⌋ ≤ min 255 ⌊y + 1 / 2⌋ :=
    min_le_min (le_refl _) hf
  omega

/-! ## Unfolding lemmas for the fuel-driven chunk recursions -/

theorem chunksExactAux_eq (N : ℕ) :
    ∀ (fuel fuel' : ℕ) (l : List ℕ), l.length ≤ fuel → l.length ≤ fuel' →
      chunksExactAux N fuel l = chunksExactAux N fuel' l := by
  intro fuel
  induction fuel with
  | zero =>
    intro fuel' l h _
    have hl : l = [] := List.eq_nil_of_length_eq_zero (Nat.le_zero.mp h)
    subst hl
    cases fuel' with
    | zero => rfl
    | succ m =>
      simp only [chunksExactAux, List.length_nil]
      rw [if_pos (by omega)]
  | succ m ih =>
    intro fuel' l h h'
    cases fuel' with
    | zero =>
      have hl : l = [] := List.eq_nil_of_length_eq_zero (Nat.le_zero.mp h')
      subst hl
      simp only [chunksExactAux, List.length_nil]
      rw [if_pos (by omega)]
    | succ m' =>
      simp only [chunksExactAux]
      by_cases hc : N = 0 ∨ l.length < N
      · rw [if_pos hc, if_pos hc]
      · rw [if_neg hc, if_neg hc]
        congr 1
        apply ih
        · rw [List.length_drop]; omega
        · rw [List.length_drop]; omega

theorem chunksExact_eq_nil {N : ℕ} {l : List ℕ} (h : N = 0 ∨ l.length < N) :
    chunksExact N l = [] := by
  unfold chunksExact
  rcases hL : l.length with _ | m
  · rfl
  · simp only [chunksExactAux]
    rw [if_pos (by omega)]

theorem chunksExact_cons {N : ℕ} {l : List ℕ} (hN : N ≠ 0) (hl : N ≤ l.length) :
    chunksExact N l = l.take N :: chunksExact N (l.drop N) := by
  unfold chunksExact
  rcases hL : l.length with _ | m
  · omega
  · simp only [chunksExactAux]
    rw [if_neg (by omega)]
    congr 1
    apply chunksExactAux_eq
    · rw [List.length_drop]; omega
    · exact le_refl _

theorem chunksExact_length {N : ℕ} (hN : N ≠ 0) :
    ∀ (n : ℕ) (l : List ℕ), l.length ≤ n →
      (chunksExact N l).length = l.length / N := by
  intro n
  induction n with
  | zero =>
    intro l h
    have hl : l = [] := List.eq_nil_of_length_eq_zero (Nat.le_zero.mp h)
    subst hl
    rw [chunksExact_eq_nil (Or.inr (by simpa using Nat.pos_of_ne_zero hN))]
    simp
  | succ m ih =>
    intro l h
    by_cases hc : l.length < N
    · rw [chunksExact_eq_nil (Or.inr hc)]
      simp [Nat.div_eq_of_lt hc]
    · push_neg at hc
      rw [chunksExact_cons hN hc]
      simp only [List.length_cons]
      rw [ih (l.drop N) (by rw [List.length_drop]; omega)]
      rw [List.length_drop]
      rw [Nat.div_eq_sub_div (Nat.pos_of_ne_zero hN) hc]

theorem updatePixelsAux_eq (N : ℕ) (f : ℕ → ℕ → ℕ → ℕ × ℕ × ℕ) :
    ∀ (fuel fuel' : ℕ) (l : List ℕ), l.length ≤ fuel → l.length ≤ fuel' →
      updatePixelsAux N f fuel l = updatePixelsAux N f fuel' l := by
  intro fuel
  induction fuel with
  | zero =>
    intro fuel' l h _
    have hl : l = [] := List.eq_nil_of_length_eq_zero (Nat.le_zero.mp h)
    subst hl
    cases fuel' with
    | zero => rfl
    | succ m =>
      simp only [updatePixelsAux, List.length_nil]
      rw [if_pos (by omega)]
  | succ m ih =>
    intro fuel' l h h'
    cases fuel' with
    | zero =>
      have hl : l = [] := List.eq_nil_of_length_eq_zero (Nat.le_zero.mp h')
      subst hl
      simp only [updatePixelsAux, List.length_nil]
      rw [if_pos (by omega)]
    | succ m' =>
      simp only [updatePixelsAux]
      by_cases hc : N = 0 ∨ l.length < N
      · rw [if_pos hc, if_pos hc]
      · rw [if_neg hc, if_neg hc]
        have : updatePixelsAux N f m (l.drop N) = updatePixelsAux N f m' (l.drop N) := by
          apply ih
          · rw [List.length_drop]; omega
          · rw [List.length_drop]; omega
        rw [this]

theorem update_pixels_short {N : ℕ} (f : ℕ → ℕ → ℕ → ℕ × ℕ × ℕ) {l : List ℕ}
    (h : N = 0 ∨ l.length < N) : update_pixels N f l = l := by
  unfold update_pixels
  rcases hL : l.length with _ | m
  · rfl
  · simp only [updatePixelsAux]
    rw [if_pos (by omega)]

theorem update_pixels_cons {N : ℕ} (f : ℕ → ℕ → ℕ → ℕ × ℕ × ℕ) {l : List ℕ}
    (hN : N ≠ 0) (hl : N ≤ l.length) :
    update_pixels N f l =
      (f (l.getD 0 0) (l.getD 1 0) (l.getD 2 0)).1 ::
      (f (l.getD 0 0) (l.getD 1 0) (l.getD 2 0)).2.1 ::
      (f (l.getD 0 0) (l.getD 1 0) (l.getD 2 0)).2.2 ::
      ((l.take N).drop 3 ++ update_pixels N f (l.drop N)) := by
  unfold update_pixels
  rcases hL : l.length with _ | m
  · omega
  · simp only [updatePixelsAux]
    rw [if_neg (by omega)]
    have : updatePixelsAux N f m (l.drop N) =
        updatePixelsAux N f (l.drop N).length (l.drop N) := by
      apply updatePixelsAux_eq
      · rw [List.length_drop]; omega
      · exact le_refl _
    rw [this]

/-! ## Flat (single-intensity) images

An image is flat with intensity `c` when every pixel's brightness is `c`,
i.e. `intensities N pixels = List.replicate k c` for some `k > 0`.
The pipeline degenerates completely on such images: the pdf is the
indicator of bin `c`, the weighting distribution is a single positive
spike at `c` (kept positive by the `f32::EPSILON` guard), the cdf is the
step function jumping from `0` to `1` at `c`, and — because
`powf(x, 0) = 1` — the curve sends the intensity `c` itself to `255`. -/

theorem filter_count_replicate (i c : ℕ) :
    ∀ k, ((List.replicate k c).filter (fun x => x = i)).length =
      if c = i then k else 0 := by
  intro k
  induction k with
  | zero => simp
  | succ m ih =>
    rw [List.replicate_succ, List.filter_cons]
    by_cases h : c = i <;> simp [h, ih]

theorem intensities_replicate3 :
    ∀ (k c : ℕ), intensities 3 (List.replicate (3 * k) c) = List.replicate k c := by
  intro k
  induction k with
  | zero =>
    intro c
    simp [intensities, chunksExact, chunksExactAux]
  | succ m ih =>
    intro c
    have h1 : 3 * (m + 1) = 3 + 3 * m := by ring
    rw [h1, List.replicate_add]
    have h2 : List.replicate 3 c = [c, c, c] := rfl
    rw [h2]
    have hlen : (3 : ℕ) ≤ ([c, c, c] ++ List.replicate (3 * m) c).length := by
      simp
    unfold intensities
    rw [chunksExact_cons (by norm_num) hlen]
    simp only [List.map_cons]
    have ht : ([c, c, c] ++ List.replicate (3 * m) c).take 3 = [c, c, c] := rfl
    have hd : ([c, c, c] ++ List.replicate (3 * m) c).drop 3 = List.replicate (3 * m) c := rfl
    rw [ht, hd]
    have := ih c
    unfold intensities at this
    rw [this]
    simp [List.replicate_succ]

/-! Hypotheses shared by the flat-image lemmas: `pixels` is a buffer whose
`k ≥ 1` pixels all have brightness `c ≤ 255`. -/

theorem flat_histogram {N : ℕ} {pixels : List ℕ} {k c : ℕ}
    (hI : intensities N pixels = List.replicate k c) (i : ℕ) :
    histogram N pixels i = if i = c then k else 0 := by
  unfold histogram
  rw [hI, filter_count_replicate]
  by_cases h : c = i
  · rw [if_pos h, if_pos h.symm]
  · rw [if_neg h, if_neg (fun hh => h hh.symm)]

theorem imageLen_eq_intensities_length {N : ℕ} (hN : N ≠ 0) (pixels : List ℕ) :
    imageLen N pixels = (intensities N pixels).length := by
  unfold imageLen intensities
  rw [List.length_map, chunksExact_length hN pixels.length pixels (le_refl _)]

theorem flat_imageLen {N : ℕ} (hN : N ≠ 0) {pixels : List ℕ} {k c : ℕ}
    (hI : intensities N pixels = List.replicate k c) : imageLen N pixels = k := by
  rw [imageLen_eq_intensities_length hN, hI, List.length_replicate]

theorem flat_pdf {N : ℕ} (hN : N ≠ 0) {pixels : List ℕ} {k c : ℕ}
    (hI : intensities N pixels = List.replicate k c) (hk : k ≠ 0) (i : ℕ) :
    pdf N pixels i = if i = c then 1 else 0 := by
  unfold pdf
  rw [flat_histogram hI, flat_imageLen hN hI]
  by_cases h : i = c
  · rw [if_pos h, if_pos h]
    rw [div_self (by exact_mod_cast hk)]
  · rw [if_neg h, if_neg h]
    simp

theorem flat_pdfMax {N : ℕ} (hN : N ≠ 0) {pixels : List ℕ} {k c : ℕ}
    (hI : intensities N pixels = List.replicate k c) (hk : k ≠ 0)
    (hc : c ≤ 255) : pdfMax (pdf N pixels) = 1 := by
  apply le_antisymm
  · apply pdfMax_le
    intro i _
    rw [flat_pdf hN hI hk]
    split <;> norm_num
  · have h := le_pdfMax (pdf N pixels) hc
    rw [flat_pdf hN hI hk, if_pos rfl] at h
    exact h

theorem flat_pdfMin {N : ℕ} (hN : N ≠ 0) {pixels : List ℕ} {k c : ℕ}
    (hI : intensities N pixels = List.replicate k c) (hk : k ≠ 0) :
    pdfMin (pdf N pixels) = 0 := by
  apply le_antisymm
  · set i0 : ℕ := if c = 0 then 1 else 0 with hi0
    have hne : i0 ≠ c := by
      rcases eq_or_ne c 0 with h | h
      · rw [hi0, if_pos h, h]; exact one_ne_zero
      · rw [hi0, if_neg h]; exact fun hh => h hh.symm
    have hle : i0 ≤ 255 := by
      rcases eq_or_ne c 0 with h | h
      · rw [hi0, if_pos h]; norm_num
      · rw [hi0, if_neg h]; norm_num
    have h := pdfMin_le (pdf N pixels) hle
    rw [flat_pdf hN hI hk, if_neg hne] at h
    exact h
  · exact pdfMin_nonneg (fun i _ => pdf_nonneg N pixels i)

theorem flat_wd {N : ℕ} (hN : N ≠ 0) {pw : ℚ → ℚ → ℚ} (hpw : PowfModel pw)
    {alpha : ℚ} (ha : 0 < alpha) {pixels : List ℕ} {k c : ℕ}
    (hI : intensities N pixels = List.replicate k c) (hk : k ≠ 0)
    (hc : c ≤ 255) (i : ℕ) :
    to_weighting_distribution pw alpha (pdf N pixels) i =
      if i = c then flatSpike pw alpha else 0 := by
  unfold to_weighting_distribution
  rw [flat_pdfMax hN hI hk hc, flat_pdfMin hN hI hk, flat_pdf hN hI hk]
  by_cases h : i = c
  · rw [if_pos h, if_pos h]
    unfold flatSpike
    norm_num [f32Epsilon]
  · rw [if_neg h, if_neg h]
    rw [show ((0 : ℚ) - 0) / (1 - 0 + f32Epsilon) = 0 by norm_num]
    rw [hpw.zero_base alpha ha]
    ring

theorem flatSpike_pos {pw : ℚ → ℚ → ℚ} (hpw : PowfModel pw) {alpha : ℚ}
    (ha : 0 < alpha) (ha1 : alpha ≤ 1) : 0 < flatSpike pw alpha := by
  apply hpw.pos <;> norm_num [ha, ha1]

theorem flat_cdfSum {N : ℕ} (hN : N ≠ 0) {pw : ℚ → ℚ → ℚ} (hpw : PowfModel pw)
    {alpha : ℚ} (ha : 0 < alpha) {pixels : List ℕ} {k c : ℕ}
    (hI : intensities N pixels = List.replicate k c) (hk : k ≠ 0)
    (hc : c ≤ 255) (i : ℕ) :
    cdfSum (to_weighting_distribution pw alpha (pdf N pixels)) i =
      if i < c then 0 else flatSpike pw alpha := by
  unfold cdfSum
  have hmap : (List.range (i + 1)).map (to_weighting_distribution pw alpha (pdf N pixels)) =
      (List.range (i + 1)).map (fun j => if j = c then flatSpike pw alpha else 0) :=
    List.map_congr_left (fun a _ => flat_wd hN hpw ha hI hk hc a)
  rw [hmap]
  by_cases h : i < c
  · rw [if_pos h]
    apply sum_map_range_zero
    intro j hj
    have hjc : j ≠ c := by omega
    rw [if_neg hjc]
  · rw [if_neg h]
    exact sum_map_range_indicator _ (i + 1) c (by omega)

theorem flat_cdf {N : ℕ} (hN : N ≠ 0) {pw : ℚ → ℚ → ℚ} (hpw : PowfModel pw)
    {alpha : ℚ} (ha : 0 < alpha) (ha1 : alpha ≤ 1) {pixels : List ℕ} {k c : ℕ}
    (hI : intensities N pixels = List.replicate k c) (hk : k ≠ 0)
    (hc : c ≤ 255) (i : ℕ) :
    cdf (to_weighting_distribution pw alpha (pdf N pixels)) i =
      if i < c then 0 else 1 := by
  unfold cdf
  have h255 : ¬(255 < c) := by omega
  rw [flat_cdfSum hN hpw ha hI hk hc i,
    flat_cdfSum hN hpw ha hI hk hc 255, if_neg h255]
  have ht := flatSpike_pos hpw ha ha1
  by_cases h : i < c
  · rw [if_pos h, zero_div, if_pos h]
  · rw [if_neg h, div_self (ne_of_gt ht), if_neg h]

theorem roundU8_eq_of {x : ℚ} {k : ℕ} (hk : k ≤ 255) (h1 : (k : ℚ) ≤ x + 1 / 2)
    (h2 : x + 1 / 2 < (k : ℚ) + 1) : roundU8 x = k := by
  unfold roundU8
  have hf : ⌊x + 1 / 2⌋ = (k : ℤ) := by
    rw [Int.floor_eq_iff]
    constructor
    · push_cast
      exact h1
    · push_cast
      exact h2
  rw [hf, min_eq_right (by exact_mod_cast hk)]
  simp

/-- On a flat image of intensity `c`, the curve sends `c` to `255`:
the cdf at `c` is exactly `1`, so the gamma exponent is exactly `0` and
`powf(c/255, 0) = 1`. -/
theorem flat_curve_at_c {N : ℕ} (hN : N ≠ 0) {pw : ℚ → ℚ → ℚ}
    (hpw : PowfModel pw) {alpha : ℚ} (ha : 0 < alpha) (ha1 : alpha ≤ 1)
    {pixels : List ℕ} {k c : ℕ}
    (hI : intensities N pixels = List.replicate k c) (hk : k ≠ 0)
    (hc : c ≤ 255) :
    intensity_transformation_curve pw
      (cdf (to_weighting_distribution pw alpha (pdf N pixels))) c = 255 := by
  unfold intensity_transformation_curve
  rw [flat_cdf hN hpw ha ha1 hI hk hc c, if_neg (lt_irrefl c)]
  rw [show (1 : ℚ) - 1 = 0 by norm_num, hpw.zero_exponent, mul_one]
  apply roundU8_eq_of (le_refl 255) <;> norm_num

theorem rgb_to_hsv_gray {c : ℕ} (hc : c ≤ 255) : rgb_to_hsv c c c = (0, 0, c) := by
  unfold rgb_to_hsv
  simp [Nat.mod_eq_of_lt (show c < 256 by omega)]

theorem hsv_to_rgb_s0 (h v : ℕ) : hsv_to_rgb h 0 v = (v, v, v) := by
  unfold hsv_to_rgb
  rw [if_pos rfl]

theorem enhancePixel_gray (curve : ℕ → ℕ) {c : ℕ} (hc : c ≤ 255) :
    enhancePixel curve c c c = (curve c, curve c, curve c) := by
  unfold enhancePixel
  rw [rgb_to_hsv_gray hc]
  exact hsv_to_rgb_s0 0 (curve c)

theorem update_pixels_replicate3 (F : ℕ → ℕ → ℕ → ℕ × ℕ × ℕ) {c d : ℕ}
    (hF : F c c c = (d, d, d)) :
    ∀ k, update_pixels 3 F (List.replicate (3 * k) c) = List.replicate (3 * k) d := by
  intro k
  induction k with
  | zero =>
    rw [Nat.mul_zero]
    exact update_pixels_short F (Or.inr (by simp))
  | succ m ih =>
    have h1 : 3 * (m + 1) = 3 + 3 * m := by ring
    rw [h1, List.replicate_add, List.replicate_add]
    have h2 : List.replicate 3 c = [c, c, c] := rfl
    have h3 : List.replicate 3 d = [d, d, d] := rfl
    rw [h2, h3]
    rw [update_pixels_cons F (by norm_num) (by simp)]
    have g0 : ([c, c, c] ++ List.replicate (3 * m) c).getD 0 0 = c := rfl
    have g1 : ([c, c, c] ++ List.replicate (3 * m) c).getD 1 0 = c := rfl
    have g2 : ([c, c, c] ++ List.replicate (3 * m) c).getD 2 0 = c := rfl
    rw [g0, g1, g2, hF]
    have ht : (([c, c, c] ++ List.replicate (3 * m) c).take 3).drop 3 = [] := rfl
    have hd : ([c, c, c] ++ List.replicate (3 * m) c).drop 3 = List.replicate (3 * m) c := rfl
    rw [ht, hd, ih]
    simp

/-- Enhancing a flat gray buffer (`k` pixels, every channel `c`) rewrites
every byte to `255`: the curve sends `c` to `255` and the gray pixel
round-trips through HSV with saturation `0`. -/
theorem flat_enhance_rgb {pw : ℚ → ℚ → ℚ} (hpw : PowfModel pw) {alpha : ℚ}
    (ha : 0 < alpha) (ha1 : alpha ≤ 1) (k c : ℕ) (hk : k ≠ 0) (hc : c ≤ 255) :
    enhance_rgb_image pw alpha (List.replicate (3 * k) c) =
      List.replicate (3 * k) 255 := by
  unfold enhance_rgb_image enhance_image
  have hI := intensities_replicate3 k c
  have hcurve := flat_curve_at_c (show (3:ℕ) ≠ 0 by norm_num) hpw ha ha1 hI hk hc
  apply update_pixels_replicate3
  rw [enhancePixel_gray _ hc, hcurve]

/-! ## Monotonicity of the intensity transformation curve -/

theorem curve_mono_of_cdf {pw : ℚ → ℚ → ℚ} (hpw : PowfModel pw) {c : ℕ → ℚ}
    (hmono : ∀ i j, i ≤ j → j ≤ 255 → c i ≤ c j) (h1 : ∀ i ≤ 255, c i ≤ 1)
    {i j : ℕ} (hij : i ≤ j) (hj : j ≤ 255) :
    intensity_transformation_curve pw c i ≤ intensity_transformation_curve pw c j := by
  unfold intensity_transformation_curve
  apply roundU8_mono
  have hiq : ((i : ℚ)) / 255 ≤ ((j : ℚ)) / 255 := by
    apply (div_le_div_iff_of_pos_right (by norm_num)).mpr
    exact_mod_cast hij
  have hb0 : (0 : ℚ) ≤ (i : ℚ) / 255 := by positivity
  have hb1 : ((j : ℚ)) / 255 ≤ 1 := by
    rw [div_le_one (by norm_num)]
    exact_mod_cast le_trans hj (le_refl 255)
  have step1 : pw ((i : ℚ) / 255) (1 - c i) ≤ pw ((j : ℚ) / 255) (1 - c i) :=
    hpw.mono _ _ _ hb0 hiq
  have step2 : pw ((j : ℚ) / 255) (1 - c i) ≤ pw ((j : ℚ) / 255) (1 - c j) := by
    apply hpw.anti _ _ _ (by positivity) hb1
    · have := h1 j hj
      linarith
    · have := hmono i j hij hj
      linarith
  have := step1.trans step2
  linarith

/-! ## Histogram counting (for C7) -/

theorem sum_map_add_nat (f g : ℕ → ℕ) :
    ∀ l : List ℕ, (l.map (fun i => f i + g i)).sum = (l.map f).sum + (l.map g).sum := by
  intro l
  induction l with
  | nil => rfl
  | cons a t ih =>
    simp only [List.map_cons, List.sum_cons, ih]
    omega

theorem sum_map_range_indicator_nat (a : ℕ) :
    ∀ n, a < n → ((List.range n).map (fun i => if a = i then 1 else 0)).sum = 1 := by
  intro n
  induction n with
  | zero => intro h; cases h
  | succ m ih =>
    intro h
    rw [List.range_succ, List.map_append, List.sum_append]
    rcases Nat.lt_succ_iff_lt_or_eq.mp h with h1 | h1
    · rw [ih h1]
      have : a ≠ m := Nat.ne_of_lt h1
      simp [this]
    · subst h1
      have hz : (((List.range a).map (fun i => if a = i then 1 else 0)).sum = 0) := by
        apply List.sum_eq_zero
        intro x hx
        rcases List.mem_map.mp hx with ⟨i, hi, rfl⟩
        have : a ≠ i := Nat.ne_of_gt (List.mem_range.mp hi)
        simp [this]
      simp [hz]

theorem sum_counts_eq_length (n : ℕ) :
    ∀ L : List ℕ, (∀ x ∈ L, x < n) →
      ((List.range n).map (fun i => (L.filter (fun x => x = i)).length)).sum = L.length := by
  intro L
  induction L with
  | nil => intro _; simp
  | cons a t ih =>
    intro hb
    have hfun : ∀ i ∈ List.range n, ((a :: t).filter (fun x => x = i)).length =
        (t.filter (fun x => x = i)).length + (if a = i then 1 else 0) := by
      intro i _
      rw [List.filter_cons]
      by_cases h : a = i <;> simp [h]
    rw [List.map_congr_left hfun, sum_map_add_nat,
      ih (fun x hx => hb x (List.mem_cons_of_mem a hx)),
      sum_map_range_indicator_nat a n (hb a (List.mem_cons_self a t))]
    simp

theorem getD_le_of_forall {c : List ℕ} {B : ℕ} (h : ∀ x ∈ c, x ≤ B) (i : ℕ) :
    c.getD i 0 ≤ B := by
  by_cases hi : i < c.length
  · rw [List.getD_eq_getElem c 0 hi]
    exact h _ (List.getElem_mem hi)
  · rw [List.getD_eq_default c 0 (by omega)]
    exact Nat.zero_le B

theorem chunksExact_mem_subset {N : ℕ} :
    ∀ (n : ℕ) (l : List ℕ), l.length ≤ n →
      ∀ c ∈ chunksExact N l, ∀ y ∈ c, y ∈ l := by
  intro n
  induction n with
  | zero =>
    intro l h c hc
    have hl : l = [] := List.eq_nil_of_length_eq_zero (Nat.le_zero.mp h)
    subst hl
    rw [chunksExact_eq_nil (by simp; omega)] at hc
    cases hc
  | succ m ih =>
    intro l h c hc y hy
    by_cases hN : N = 0
    · rw [chunksExact_eq_nil (Or.inl hN)] at hc
      cases hc
    by_cases hlen : l.length < N
    · rw [chunksExact_eq_nil (Or.inr hlen)] at hc
      cases hc
    push_neg at hlen
    rw [chunksExact_cons hN hlen] at hc
    rcases List.mem_cons.mp hc with h1 | h1
    · subst h1
      exact List.take_subset N l hy
    · exact List.drop_subset N l
        (ih (l.drop N) (by rw [List.length_drop]; omega) c h1 y hy)

theorem intensities_le_255 {N : ℕ} {l : List ℕ} (hb : ∀ x ∈ l, x ≤ 255) :
    ∀ x ∈ intensities N l, x ≤ 255 := by
  intro x hx
  unfold intensities at hx
  rcases List.mem_map.mp hx with ⟨c, hc, rfl⟩
  have hcs : ∀ y ∈ c, y ≤ 255 := fun y hy =>
    hb y (chunksExact_mem_subset l.length l (le_refl _) c hc y hy)
  have h0 := getD_le_of_forall hcs 0
  have h1 := getD_le_of_forall hcs 1
  have h2 := getD_le_of_forall hcs 2
  omega

/-! ## Index lemmas for `update_pixels` (for C8 and C2) -/

theorem update_pixels_length {N : ℕ} (f : ℕ → ℕ → ℕ → ℕ × ℕ × ℕ)
    (hN : 3 ≤ N) :
    ∀ (n : ℕ) (l : List ℕ), l.length ≤ n →
      (update_pixels N f l).length = l.length := by
  intro n
  induction n with
  | zero =>
    intro l h
    rw [update_pixels_short f (Or.inr (by omega))]
  | succ m ih =>
    intro l h
    by_cases hlen : l.length < N
    · rw [update_pixels_short f (Or.inr hlen)]
    push_neg at hlen
    rw [update_pixels_cons f (by omega) hlen]
    simp only [List.length_cons, List.length_append, List.length_drop,
      List.length_take]
    rw [ih (l.drop N) (by rw [List.length_drop]; omega), List.length_drop]
    omega

theorem update_pixels4_getD_alpha (f : ℕ → ℕ → ℕ → ℕ × ℕ × ℕ) :
    ∀ (n : ℕ) (l : List ℕ), l.length ≤ n → ∀ k,
      (update_pixels 4 f l).getD (4 * k + 3) 0 = l.getD (4 * k + 3) 0 := by
  intro n
  induction n with
  | zero =>
    intro l h k
    rw [update_pixels_short f (Or.inr (by omega))]
  | succ m ih =>
    intro l h k
    by_cases hlen : l.length < 4
    · rw [update_pixels_short f (Or.inr hlen)]
    push_neg at hlen
    rcases l with _ | ⟨a, l⟩; · simp at hlen
    rcases l with _ | ⟨b, l⟩; · simp at hlen
    rcases l with _ | ⟨c, l⟩; · simp at hlen
    rcases l with _ | ⟨d, rest⟩; · simp at hlen
    rw [update_pixels_cons f (by norm_num) hlen]
    have ht : ((a :: b :: c :: d :: rest).take 4).drop 3 = [d] := rfl
    have hd : (a :: b :: c :: d :: rest).drop 4 = rest := rfl
    rw [ht, hd]
    cases k with
    | zero => simp [List.getD]
    | succ k' =>
      rw [show 4 * (k' + 1) + 3 = (4 * k' + 3) + 1 + 1 + 1 + 1 by ring]
      simp only [List.getD_cons_succ, List.singleton_append]
      exact ih rest (by simp at h; omega) k'

theorem getD_drop (l : List ℕ) (n i d : ℕ) :
    (l.drop n).getD i d = l.getD (n + i) d := by
  simp [List.getD_eq_getElem?_getD, List.getElem?_drop]

theorem update_pixels_getD_trailing {N : ℕ} (f : ℕ → ℕ → ℕ → ℕ × ℕ × ℕ)
    (hN : 3 ≤ N) :
    ∀ (n : ℕ) (l : List ℕ), l.length ≤ n → ∀ i, N * (l.length / N) ≤ i →
      (update_pixels N f l).getD i 0 = l.getD i 0 := by
  intro n
  induction n with
  | zero =>
    intro l h i _
    rw [update_pixels_short f (Or.inr (by omega))]
  | succ m ih =>
    intro l h i hi
    by_cases hlen : l.length < N
    · rw [update_pixels_short f (Or.inr hlen)]
    push_neg at hlen
    rw [update_pixels_cons f (by omega) hlen]
    have hdivpos : 1 ≤ l.length / N := (Nat.one_le_div_iff (by omega)).mpr hlen
    have hiN : N ≤ i := le_trans (by nlinarith) hi
    have hA : ((l.take N).drop 3).length = N - 3 := by
      simp [List.length_drop, List.length_take]
      omega
    have hsplit :
        ((f (l.getD 0 0) (l.getD 1 0) (l.getD 2 0)).1 ::
         (f (l.getD 0 0) (l.getD 1 0) (l.getD 2 0)).2.1 ::
         (f (l.getD 0 0) (l.getD 1 0) (l.getD 2 0)).2.2 ::
         ((l.take N).drop 3 ++ update_pixels N f (l.drop N))) =
        [(f (l.getD 0 0) (l.getD 1 0) (l.getD 2 0)).1,
         (f (l.getD 0 0) (l.getD 1 0) (l.getD 2 0)).2.1,
         (f (l.getD 0 0) (l.getD 1 0) (l.getD 2 0)).2.2] ++
        ((l.take N).drop 3 ++ update_pixels N f (l.drop N)) := rfl
    rw [hsplit, List.getD_append_right _ _ _ _ (by simp; omega),
      List.getD_append_right _ _ _ _ (by rw [hA]; simp; omega)]
    rw [hA]
    have hidx : i - [(f (l.getD 0 0) (l.getD 1 0) (l.getD 2 0)).1,
         (f (l.getD 0 0) (l.getD 1 0) (l.getD 2 0)).2.1,
         (f (l.getD 0 0) (l.getD 1 0) (l.getD 2 0)).2.2].length - (N - 3) = i - N := by
      simp
      omega
    rw [hidx]
    have hdl : (l.drop N).length ≤ m := by rw [List.length_drop]; omega
    have hdiv : l.length / N = (l.length - N) / N + 1 :=
      Nat.div_eq_sub_div (by omega) hlen
    have hcond : N * ((l.drop N).length / N) ≤ i - N := by
      rw [List.length_drop]
      have h2 : N * ((l.length - N) / N + 1) ≤ i := by rw [← hdiv]; exact hi
      rw [Nat.mul_succ] at h2
      omega
    rw [ih (l.drop N) hdl (i - N) hcond, getD_drop]
    congr 1
    omega

/-! ## Claim theorems -/

/-- C1 (amended): enhancing the 8×8 buffer filled with `(128,128,128)` at
`alpha = 0.5` does not leave it unchanged — it rewrites every byte to
`255`.  The histogram is a single spike at bin 128, so the normalized CDF
is exactly `1` from bin 128 on, the gamma exponent at 128 is exactly `0`,
`powf(128/255, 0) = 1`, and the curve maps brightness 128 to 255; every
pixel `(128,128,128)` has saturation 0 and becomes `(255,255,255)`.
Stated for every model of `powf`. -/
theorem claim_C1_gray_image_becomes_white (pw : ℚ → ℚ → ℚ) (hpw : PowfModel pw) :
    enhance_rgb_image pw (1 / 2) (List.replicate 192 128) =
      List.replicate 192 255 := by
  have h := flat_enhance_rgb hpw (show (0 : ℚ) < 1 / 2 by norm_num)
    (by norm_num) 64 128 (by norm_num) (by norm_num)
  simpa using h

/-- C1, closed-form instance of the amended claim at the concrete `powf`
model `powQ`. -/
theorem claim_C1_witness :
    enhance_rgb_image powQ (1 / 2) (List.replicate 192 128) =
      List.replicate 192 255 :=
  claim_C1_gray_image_becomes_white powQ powQ_model

/-- C1, counterexample to the claim as stated: the first byte of the
enhanced 8×8 gray buffer is `255`, which differs from the original `128`
by `127`, far beyond the claimed 1–2 levels of rounding noise. -/
theorem claim_C1_counterexample :
    (enhance_rgb_image powQ (1 / 2) (List.replicate 192 128)).getD 0 0 = 255 ∧
    ¬((enhance_rgb_image powQ (1 / 2) (List.replicate 192 128)).getD 0 0 ≤ 128 + 2) := by
  have h := flat_enhance_rgb powQ_model (show (0 : ℚ) < 1 / 2 by norm_num)
    (by norm_num) 64 128 (by norm_num) (by norm_num)
  have h' : enhance_rgb_image powQ (1 / 2) (List.replicate 192 128) =
      List.replicate 192 255 := by simpa using h
  rw [h']
  decide

/-- C3 (amended): for every CDF arising in the pipeline the 256-entry curve
is non-decreasing; `curve[0] = 0` holds whenever `cdf[0] < 1`, but when
`cdf[0] = 1` (image entirely of brightness 0) `curve[0] = 255`, because
the exponent is `1 - cdf[0] = 0` and `powf(0, 0) = 1`. -/
theorem claim_C3_curve_monotone_and_curve0 (pw : ℚ → ℚ → ℚ)
    (hpw : PowfModel pw) (alpha : ℚ) (N : ℕ) (pixels : List ℕ) :
    (∀ i j, i ≤ j → j ≤ 255 →
      intensity_transformation_curve pw
        (cdf (to_weighting_distribution pw alpha (pdf N pixels))) i ≤
      intensity_transformation_curve pw
        (cdf (to_weighting_distribution pw alpha (pdf N pixels))) j) ∧
    (cdf (to_weighting_distribution pw alpha (pdf N pixels)) 0 < 1 →
      intensity_transformation_curve pw
        (cdf (to_weighting_distribution pw alpha (pdf N pixels))) 0 = 0) ∧
    (cdf (to_weighting_distribution pw alpha (pdf N pixels)) 0 = 1 →
      intensity_transformation_curve pw
        (cdf (to_weighting_distribution pw alpha (pdf N pixels))) 0 = 255) := by
  have hwnn : ∀ i ≤ 255, 0 ≤ to_weighting_distribution pw alpha (pdf N pixels) i :=
    fun i hi => wd_nonneg hpw alpha (fun j _ => pdf_nonneg N pixels j) hi
  have hcdfm : ∀ i j, i ≤ j → j ≤ 255 →
      cdf (to_weighting_distribution pw alpha (pdf N pixels)) i ≤
      cdf (to_weighting_distribution pw alpha (pdf N pixels)) j :=
    fun i j hij hj => cdf_mono hwnn hij hj
  have hcle : ∀ i ≤ 255, cdf (to_weighting_distribution pw alpha (pdf N pixels)) i ≤ 1 :=
    fun i hi => cdf_le_one hwnn hi
  refine ⟨fun i j hij hj => curve_mono_of_cdf hpw hcdfm hcle hij hj, ?_, ?_⟩
  · intro h0
    unfold intensity_transformation_curve
    have hz : ((0 : ℕ) : ℚ) / 255 = 0 := by norm_num
    rw [hz, hpw.zero_base _ (by linarith), mul_zero]
    exact roundU8_eq_of (by norm_num) (by norm_num) (by norm_num)
  · intro h1
    unfold intensity_transformation_curve
    rw [h1, show (1 : ℚ) - 1 = 0 by norm_num, hpw.zero_exponent, mul_one]
    exact roundU8_eq_of (le_refl 255) (by norm_num) (by norm_num)

/-- C3, closed instance of the amended claim at `powQ`, `alpha = 0.5` and a
concrete one-pixel image. -/
theorem claim_C3_witness :
    (∀ i j, i ≤ j → j ≤ 255 →
      intensity_transformation_curve powQ
        (cdf (to_weighting_distribution powQ (1 / 2) (pdf 3 [10, 20, 30]))) i ≤
      intensity_transformation_curve powQ
        (cdf (to_weighting_distribution powQ (1 / 2) (pdf 3 [10, 20, 30]))) j) ∧
    (cdf (to_weighting_distribution powQ (1 / 2) (pdf 3 [10, 20, 30])) 0 < 1 →
      intensity_transformation_curve powQ
        (cdf (to_weighting_distribution powQ (1 / 2) (pdf 3 [10, 20, 30]))) 0 = 0) ∧
    (cdf (to_weighting_distribution powQ (1 / 2) (pdf 3 [10, 20, 30])) 0 = 1 →
      intensity_transformation_curve powQ
        (cdf (to_weighting_distribution powQ (1 / 2) (pdf 3 [10, 20, 30]))) 0 = 255) :=
  claim_C3_curve_monotone_and_curve0 powQ powQ_model (1 / 2) 3 [10, 20, 30]

/-- C3, counterexample to `curve[0] = 0` as stated: for the valid one-pixel
all-black image `[0, 0, 0]` the CDF at bin 0 is exactly `1`, so
`curve[0] = round(255 · (0/255)^0) = 255 ≠ 0`. -/
theorem claim_C3_counterexample :
    intensity_transformation_curve powQ
      (cdf (to_weighting_distribution powQ (1 / 2) (pdf 3 [0, 0, 0]))) 0 ≠ 0 ∧
    intensity_transformation_curve powQ
      (cdf (to_weighting_distribution powQ (1 / 2) (pdf 3 [0, 0, 0]))) 0 = 255 := by
  have hI : intensities 3 [0, 0, 0] = List.replicate 1 0 := rfl
  have h := flat_curve_at_c (show (3 : ℕ) ≠ 0 by norm_num) powQ_model
    (show (0 : ℚ) < 1 / 2 by norm_num) (by norm_num) hI one_ne_zero
    (by norm_num)
  exact ⟨by rw [h]; norm_num, h⟩

/-- C9: on a flat (single-intensity, non-empty) image and any
`alpha ∈ (0, 1]`, both pipeline denominators are positive — the
weighting-distribution denominator thanks to the `f32::EPSILON` guard and
the CDF normalizer because the spike bin keeps a positive weight — and
every curve entry is a defined 8-bit value. -/
theorem claim_C9_flat_image_well_defined (pw : ℚ → ℚ → ℚ) (alpha : ℚ)
    (N : ℕ) (pixels : List ℕ) (k c : ℕ) (hpw : PowfModel pw) (hN : N ≠ 0)
    (ha : 0 < alpha) (ha1 : alpha ≤ 1)
    (hI : intensities N pixels = List.replicate k c) (hk : k ≠ 0)
    (hc : c ≤ 255) :
    0 < pdfMax (pdf N pixels) - pdfMin (pdf N pixels) + f32Epsilon ∧
    0 < cdfSum (to_weighting_distribution pw alpha (pdf N pixels)) 255 ∧
    ∀ i ≤ 255, intensity_transformation_curve pw
      (cdf (to_weighting_distribution pw alpha (pdf N pixels))) i ≤ 255 := by
  refine ⟨wd_range_pos _, ?_, fun i _ => roundU8_le_255 _⟩
  rw [flat_cdfSum hN hpw ha hI hk hc 255, if_neg (show ¬(255 < c) by omega)]
  exact flatSpike_pos hpw ha ha1

/-- C9, closed instance at `powQ`, `alpha = 0.5` and the one-pixel flat
image `[7, 7, 7]`. -/
theorem claim_C9_witness :
    0 < pdfMax (pdf 3 [7, 7, 7]) - pdfMin (pdf 3 [7, 7, 7]) + f32Epsilon ∧
    0 < cdfSum (to_weighting_distribution powQ (1 / 2) (pdf 3 [7, 7, 7])) 255 ∧
    ∀ i ≤ 255, intensity_transformation_curve powQ
      (cdf (to_weighting_distribution powQ (1 / 2) (pdf 3 [7, 7, 7]))) i ≤ 255 :=
  claim_C9_flat_image_well_defined powQ (1 / 2) 3 [7, 7, 7] 1 7 powQ_model
    (by norm_num) (by norm_num) (by norm_num) rfl one_ne_zero (by norm_num)

/-- C7: for every pixel view whose bytes are valid `u8` values, the 256
histogram counters sum exactly to the pixel count `pixels.len() / N`
(proved without a non-emptiness hypothesis, so in particular for every
non-empty view). -/
theorem claim_C7_histogram_sum (N : ℕ) (l : List ℕ) (hN : N ≠ 0)
    (hb : ∀ x ∈ l, x ≤ 255) :
    ((List.range 256).map (histogram N l)).sum = imageLen N l := by
  have h := sum_counts_eq_length 256 (intensities N l)
    (fun x hx => by have := intensities_le_255 hb x hx; omega)
  rw [imageLen_eq_intensities_length hN l]
  exact h

/-- C7, closed instance on a concrete two-pixel RGB view (with one trailing
byte, which `chunks_exact` ignores: the pixel count is `7 / 3 = 2`). -/
theorem claim_C7_witness :
    ((List.range 256).map (histogram 3 [10, 20, 30, 40, 50, 60, 70])).sum =
      imageLen 3 [10, 20, 30, 40, 50, 60, 70] :=
  claim_C7_histogram_sum 3 _ (by norm_num) (by decide)

/-- C8: `enhance_rgba_image` preserves the buffer length and never modifies
any fourth byte: `buffer[4k+3]` is unchanged for every pixel index `k`,
for every `powf` model and every `alpha`. -/
theorem claim_C8_alpha_preserved (pw : ℚ → ℚ → ℚ) (alpha : ℚ)
    (pixels : List ℕ) (_hlen : pixels.length % 4 = 0) :
    (enhance_rgba_image pw alpha pixels).length = pixels.length ∧
    ∀ k, (enhance_rgba_image pw alpha pixels).getD (4 * k + 3) 0 =
      pixels.getD (4 * k + 3) 0 := by
  unfold enhance_rgba_image enhance_image
  exact ⟨update_pixels_length _ (by norm_num) pixels.length pixels (le_refl _),
    fun k => update_pixels4_getD_alpha _ pixels.length pixels (le_refl _) k⟩

/-- C8, closed instance on a concrete two-pixel RGBA buffer. -/
theorem claim_C8_witness :
    (enhance_rgba_image powQ (1 / 2) [1, 2, 3, 4, 5, 6, 7, 8]).length =
      ([1, 2, 3, 4, 5, 6, 7, 8] : List ℕ).length ∧
    ∀ k, (enhance_rgba_image powQ (1 / 2) [1, 2, 3, 4, 5, 6, 7, 8]).getD (4 * k + 3) 0 =
      ([1, 2, 3, 4, 5, 6, 7, 8] : List ℕ).getD (4 * k + 3) 0 :=
  claim_C8_alpha_preserved powQ (1 / 2) [1, 2, 3, 4, 5, 6, 7, 8] rfl

/-- C2 (amended): the enhancement operations never report anything to the
caller — they are total functions returning a same-length buffer.  A
buffer whose length is not a multiple of the stride has its trailing
`len % N` bytes silently ignored and left unchanged (`chunks_exact`
truncation), and a buffer shorter than one pixel (in particular a
zero-pixel buffer) is silently returned unchanged. -/
theorem claim_C2_silent_truncation (pw : ℚ → ℚ → ℚ) (alpha : ℚ) (N : ℕ)
    (pixels : List ℕ) (hN : 3 ≤ N) :
    (enhance_image pw alpha N pixels).length = pixels.length ∧
    (∀ i, N * (pixels.length / N) ≤ i →
      (enhance_image pw alpha N pixels).getD i 0 = pixels.getD i 0) ∧
    (pixels.length < N → enhance_image pw alpha N pixels = pixels) := by
  unfold enhance_image
  refine ⟨update_pixels_length _ hN pixels.length pixels (le_refl _),
    fun i hi => update_pixels_getD_trailing _ hN pixels.length pixels (le_refl _) i hi,
    fun hshort => update_pixels_short _ (Or.inr hshort)⟩

/-- C2, closed instance at `powQ`, `alpha = 0.5`, stride 3, on a
four-byte buffer (one full pixel plus one trailing byte). -/
theorem claim_C2_witness :
    (enhance_image powQ (1 / 2) 3 [10, 20, 30, 40]).length =
      ([10, 20, 30, 40] : List ℕ).length ∧
    (∀ i, 3 * (([10, 20, 30, 40] : List ℕ).length / 3) ≤ i →
      (enhance_image powQ (1 / 2) 3 [10, 20, 30, 40]).getD i 0 =
        ([10, 20, 30, 40] : List ℕ).getD i 0) ∧
    (([10, 20, 30, 40] : List ℕ).length < 3 →
      enhance_image powQ (1 / 2) 3 [10, 20, 30, 40] = [10, 20, 30, 40]) :=
  claim_C2_silent_truncation powQ (1 / 2) 3 [10, 20, 30, 40] (le_refl 3)

/-- C2, counterexample to the claim as stated: on the four-byte buffer
`[10, 20, 30, 40]` (length not a multiple of 3) `enhance_rgb_image`
silently truncates — it enhances the one complete pixel and passes the
trailing byte `40` through unchanged, reporting nothing; and on the
zero-pixel empty buffer it silently does nothing. -/
theorem claim_C2_counterexample :
    enhance_rgb_image powQ (1 / 2) [10, 20, 30, 40] = [85, 173, 255, 40] ∧
    (enhance_rgb_image powQ (1 / 2) [10, 20, 30, 40]).getD 3 0 = 40 ∧
    enhance_rgb_image powQ (1 / 2) [] = [] := by
  have hI : intensities 3 [10, 20, 30, 40] = List.replicate 1 30 := rfl
  have hcurve := flat_curve_at_c (show (3 : ℕ) ≠ 0 by norm_num) powQ_model
    (show (0 : ℚ) < 1 / 2 by norm_num) (by norm_num) hI one_ne_zero
    (by norm_num)
  have hmain : enhance_rgb_image powQ (1 / 2) [10, 20, 30, 40] = [85, 173, 255, 40] := by
    unfold enhance_rgb_image enhance_image
    rw [update_pixels_cons _ (by norm_num) (by norm_num)]
    rw [update_pixels_short _ (Or.inr (by norm_num))]
    have hpix : enhancePixel
        (intensity_transformation_curve powQ
          (cdf (to_weighting_distribution powQ (1 / 2) (pdf 3 [10, 20, 30, 40]))))
        (([10, 20, 30, 40] : List ℕ).getD 0 0) (([10, 20, 30, 40] : List ℕ).getD 1 0)
        (([10, 20, 30, 40] : List ℕ).getD 2 0) = (85, 173, 255) := by
      unfold enhancePixel
      rw [show rgb_to_hsv (([10, 20, 30, 40] : List ℕ).getD 0 0)
          (([10, 20, 30, 40] : List ℕ).getD 1 0)
          (([10, 20, 30, 40] : List ℕ).getD 2 0) = (148, 170, 30) from by decide]
      show hsv_to_rgb 148 170
        (intensity_transformation_curve powQ
          (cdf (to_weighting_distribution powQ (1 / 2) (pdf 3 [10, 20, 30, 40]))) 30) =
        (85, 173, 255)
      rw [hcurve]
      decide
    rw [hpix]
    rfl
  refine ⟨hmain, by rw [hmain]; rfl, ?_⟩
  unfold enhance_rgb_image enhance_image
  exact update_pixels_short _ (Or.inr (by norm_num))

/-- C4 (amended): whenever the catch-all arm of `hsv_to_rgb` is reached,
the sector value is `0` or `6` — exactly the assertion in
`color_format.rs`; the value `1` claimed by the `lib.rs` assertion never
reaches the catch-all arm at all, since sector `1` has its own arm. -/
theorem claim_C4_catch_all_sector (h : ℕ) (hh : h ≤ 255)
    (hc : hsv_catch_all h) : color_format_debug_assert (hsv_sector h) := by
  unfold hsv_catch_all hsv_sector at hc
  unfold color_format_debug_assert hsv_sector
  omega

/-- C4, closed instance at `h = 0` (the catch-all arm with sector `0`). -/
theorem claim_C4_witness : color_format_debug_assert (hsv_sector 0) :=
  claim_C4_catch_all_sector 0 (by norm_num) (by decide)

/-- C4, counterexample to the claim as stated: at `h = 0` (which
`rgb_to_hsv` produces for the pure-red pixel, with saturation `255 > 0`)
the catch-all arm is reached with sector value `0`, and the `lib.rs`
assertion `n == 1 || n == 6` is false there; the catch-all arm still
computes the correct pure-red result. -/
theorem claim_C4_counterexample :
    hsv_catch_all 0 ∧ ¬lib_debug_assert (hsv_sector 0) ∧
    rgb_to_hsv 255 0 0 = (0, 255, 255) ∧
    hsv_to_rgb 0 255 255 = (255, 0, 0) := by decide

/-! ## The perfectly uniform histogram (for C6)

A 256-pixel image whose brightness values hit every bin exactly once has
`pdf_max = pdf_min = 1/256`, so every weighted-pdf entry is
`(1/256) · powf(0, alpha) = 0`, the CDF total is `0`, and the
normalization divides by zero (`NaN` in `f32`, `0` in this exact
model). -/

theorem count_filter_range (i : ℕ) :
    ∀ n, ((List.range n).filter (fun x => x = i)).length = if i < n then 1 else 0 := by
  intro n
  induction n with
  | zero => simp
  | succ m ih =>
    rw [List.range_succ, List.filter_append, List.length_append, ih]
    rcases lt_trichotomy i m with h | h | h
    · have hne : m ≠ i := by omega
      simp [h, hne, show i < m + 1 by omega]
    · subst h
      simp
    · have hne : m ≠ i := by omega
      have h1 : ¬(i < m) := by omega
      have h2 : ¬(i < m + 1) := by omega
      simp [h1, h2, hne]

set_option maxRecDepth 20000 in
theorem uniform_intensities : intensities 3 uniformBuf = List.range 256 := by decide

theorem uniform_histogram (i : ℕ) :
    histogram 3 uniformBuf i = if i < 256 then 1 else 0 := by
  unfold histogram
  rw [uniform_intensities, count_filter_range]

theorem uniform_imageLen : imageLen 3 uniformBuf = 256 := by
  rw [imageLen_eq_intensities_length (by norm_num), uniform_intensities]
  simp

theorem uniform_pdf (i : ℕ) :
    pdf 3 uniformBuf i = if i < 256 then 1 / 256 else 0 := by
  unfold pdf
  rw [uniform_histogram, uniform_imageLen]
  by_cases h : i < 256
  · rw [if_pos h, if_pos h]
    norm_num
  · rw [if_neg h, if_neg h]
    norm_num

theorem uniform_pdfMax : pdfMax (pdf 3 uniformBuf) = 1 / 256 := by
  apply le_antisymm
  · apply pdfMax_le
    intro i hi
    rw [uniform_pdf, if_pos (by omega)]
  · have h := le_pdfMax (pdf 3 uniformBuf) (show (0 : ℕ) ≤ 255 by norm_num)
    rw [uniform_pdf, if_pos (by norm_num)] at h
    exact h

theorem uniform_pdfMin : pdfMin (pdf 3 uniformBuf) = 1 / 256 := by
  apply le_antisymm
  · have h := pdfMin_le (pdf 3 uniformBuf) (show (0 : ℕ) ≤ 255 by norm_num)
    rw [uniform_pdf, if_pos (by norm_num)] at h
    exact h
  · apply le_pdfMin
    intro i hi
    rw [uniform_pdf, if_pos (by omega)]

theorem uniform_wd {pw : ℚ → ℚ → ℚ} (hpw : PowfModel pw) {alpha : ℚ}
    (ha : 0 < alpha) {i : ℕ} (hi : i ≤ 255) :
    to_weighting_distribution pw alpha (pdf 3 uniformBuf) i = 0 := by
  unfold to_weighting_distribution
  rw [uniform_pdfMax, uniform_pdfMin, uniform_pdf, if_pos (by omega)]
  rw [show ((1 : ℚ) / 256 - 1 / 256) / (1 / 256 - 1 / 256 + f32Epsilon) = 0 by
    norm_num [f32Epsilon]]
  rw [hpw.zero_base alpha ha]
  ring

theorem uniform_cdfSum {pw : ℚ → ℚ → ℚ} (hpw : PowfModel pw) {alpha : ℚ}
    (ha : 0 < alpha) :
    cdfSum (to_weighting_distribution pw alpha (pdf 3 uniformBuf)) 255 = 0 := by
  apply sum_map_range_zero
  intro i hi
  exact uniform_wd hpw ha (by omega)

/-! ## Positivity of the CDF total when the pdf is not uniform (for C6) -/

theorem foldl_max_eq_init_or_mem {α : Type _} [LinearOrder α] :
    ∀ (l : List α) (init : α), l.foldl max init = init ∨ l.foldl max init ∈ l := by
  intro l
  induction l with
  | nil => intro init; exact Or.inl rfl
  | cons a t ih =>
    intro init
    rcases ih (max init a) with h | h
    · rcases max_choice init a with hm | hm
      · exact Or.inl (by rw [List.foldl_cons, h, hm])
      · exact Or.inr (by rw [List.foldl_cons, h, hm]; exact List.mem_cons_self a t)
    · exact Or.inr (List.mem_cons_of_mem a h)

theorem pdfMax_attained (p : ℕ → ℚ) : ∃ j ≤ 255, pdfMax p = p j := by
  unfold pdfMax
  rcases foldl_max_eq_init_or_mem ((List.range 255).map (fun i => p (i + 1))) (p 0) with h | h
  · exact ⟨0, by norm_num, h⟩
  · rcases List.mem_map.mp h with ⟨i, hi, hval⟩
    exact ⟨i + 1, by have := List.mem_range.mp hi; omega, hval.symm⟩

theorem sum_map_range_ge {p : ℕ → ℚ} :
    ∀ (n : ℕ), (∀ i < n, 0 ≤ p i) → ∀ j < n, p j ≤ ((List.range n).map p).sum := by
  intro n
  induction n with
  | zero => intro _ j hj; cases hj
  | succ m ih =>
    intro hp j hj
    rw [List.range_succ, List.map_append, List.sum_append]
    simp only [List.map_cons, List.map_nil, List.sum_cons, List.sum_nil, add_zero]
    rcases Nat.lt_succ_iff_lt_or_eq.mp hj with h | h
    · have := ih (fun i hi => hp i (by omega)) j h
      have hm := hp m (by omega)
      linarith
    · subst h
      have : 0 ≤ ((List.range j).map p).sum :=
        sum_map_range_nonneg j (fun i hi => hp i (by omega))
      linarith

theorem cdfSum_total_pos {pw : ℚ → ℚ → ℚ} (hpw : PowfModel pw) {alpha : ℚ}
    (ha : 0 < alpha) (ha1 : alpha ≤ 1) {p : ℕ → ℚ} (hp : ∀ i, 0 ≤ p i)
    (hne : pdfMin p < pdfMax p) :
    0 < cdfSum (to_weighting_distribution pw alpha p) 255 := by
  obtain ⟨j, hj, hjmax⟩ := pdfMax_attained p
  have hwj : 0 < to_weighting_distribution pw alpha p j := by
    unfold to_weighting_distribution
    apply mul_pos
    · have := pdfMin_nonneg (fun i _ => hp i)
      linarith
    · apply hpw.pos
      · apply div_pos
        · rw [← hjmax]
          linarith
        · exact wd_range_pos p
      · have := wd_arg_le_one p hj
        exact this
      · exact ha
      · exact ha1
  have hle := sum_map_range_ge 256
    (fun i hi => wd_nonneg hpw alpha (fun x _ => hp x) (show i ≤ 255 by omega))
    j (by omega)
  calc (0 : ℚ) < to_weighting_distribution pw alpha p j := hwj
  _ ≤ _ := hle

/-- C6 (amended): for every image whose pdf is not perfectly uniform
(`pdf_min < pdf_max`) and `alpha ∈ (0, 1]`, the CDF over the weighted pdf
is non-decreasing across the 256 entries and its last entry is exactly
`1`.  (When the histogram is perfectly uniform every weighted entry is
`0` and the normalization divides by zero — see the counterexample.) -/
theorem claim_C6_cdf_monotone_last_one (pw : ℚ → ℚ → ℚ) (alpha : ℚ)
    (N : ℕ) (pixels : List ℕ) (hpw : PowfModel pw) (ha : 0 < alpha)
    (ha1 : alpha ≤ 1)
    (hne : pdfMin (pdf N pixels) < pdfMax (pdf N pixels)) :
    (∀ i j, i ≤ j → j ≤ 255 →
      cdf (to_weighting_distribution pw alpha (pdf N pixels)) i ≤
      cdf (to_weighting_distribution pw alpha (pdf N pixels)) j) ∧
    cdf (to_weighting_distribution pw alpha (pdf N pixels)) 255 = 1 := by
  have hwnn : ∀ i ≤ 255, 0 ≤ to_weighting_distribution pw alpha (pdf N pixels) i :=
    fun i hi => wd_nonneg hpw alpha (fun j _ => pdf_nonneg N pixels j) hi
  refine ⟨fun i j hij hj => cdf_mono hwnn hij hj, ?_⟩
  exact cdf_last (ne_of_gt (cdfSum_total_pos hpw ha ha1 (pdf_nonneg N pixels) hne))

/-- C6, closed instance at `powQ`, `alpha = 0.5` and the one-pixel image
`[10, 20, 30]` (spike pdf: `pdf_min = 0 < 1 = pdf_max`). -/
theorem claim_C6_witness :
    (∀ i j, i ≤ j → j ≤ 255 →
      cdf (to_weighting_distribution powQ (1 / 2) (pdf 3 [10, 20, 30])) i ≤
      cdf (to_weighting_distribution powQ (1 / 2) (pdf 3 [10, 20, 30])) j) ∧
    cdf (to_weighting_distribution powQ (1 / 2) (pdf 3 [10, 20, 30])) 255 = 1 := by
  apply claim_C6_cdf_monotone_last_one powQ (1 / 2) 3 [10, 20, 30] powQ_model
    (by norm_num) (by norm_num)
  have hI : intensities 3 [10, 20, 30] = List.replicate 1 30 := rfl
  rw [flat_pdfMax (show (3 : ℕ) ≠ 0 by norm_num) hI one_ne_zero (by norm_num),
    flat_pdfMin (show (3 : ℕ) ≠ 0 by norm_num) hI one_ne_zero]
  norm_num

/-- C6, counterexample to the claim as stated: for the 256-pixel image
whose brightness histogram is exactly uniform, every weighted-pdf entry
is `(1/256) · powf(0, α) = 0`, the CDF total is `0`, and the normalized
last entry is `0/0` — `NaN` in `f32`, `0` in this exact model — not `1`
within any tolerance. -/
theorem claim_C6_counterexample :
    cdfSum (to_weighting_distribution powQ (1 / 2) (pdf 3 uniformBuf)) 255 = 0 ∧
    cdf (to_weighting_distribution powQ (1 / 2) (pdf 3 uniformBuf)) 255 = 0 ∧
    ¬(|cdf (to_weighting_distribution powQ (1 / 2) (pdf 3 uniformBuf)) 255 - 1| ≤
      1 / 1000) := by
  have hs := uniform_cdfSum powQ_model (show (0 : ℚ) < 1 / 2 by norm_num)
  have hc : cdf (to_weighting_distribution powQ (1 / 2) (pdf 3 uniformBuf)) 255 = 0 := by
    unfold cdf
    rw [hs, div_zero]
  refine ⟨hs, hc, ?_⟩
  rw [hc]
  norm_num

/-! ## The YUV round trip (for C5) -/

theorem cast_mod_toNat (x : ℤ) (h0 : 0 ≤ x) (h1 : x < 256) :
    (((x % 256).toNat : ℤ)) = x := by omega

/-- The `rgb_to_yuv` / `yuv_to_rgb` round trip reproduces every channel
within `±3` (and `3` is attained, e.g. at `(0, 4, 230)`). -/
theorem yuv_roundtrip_bound (r g b : ℕ) (hr : r ≤ 255) (hg : g ≤ 255)
    (hb : b ≤ 255) :
    (((yuv_to_rgb (rgb_to_yuv r g b).1 (rgb_to_yuv r g b).2.1
        (rgb_to_yuv r g b).2.2).1 : ℤ) - r).natAbs ≤ 3 ∧
    (((yuv_to_rgb (rgb_to_yuv r g b).1 (rgb_to_yuv r g b).2.1
        (rgb_to_yuv r g b).2.2).2.1 : ℤ) - g).natAbs ≤ 3 ∧
    (((yuv_to_rgb (rgb_to_yuv r g b).1 (rgb_to_yuv r g b).2.1
        (rgb_to_yuv r g b).2.2).2.2 : ℤ) - b).natAbs ≤ 3 := by
  unfold yuv_to_rgb rgb_to_yuv to_u8
  simp only []
  have hY1 : (0 : ℤ) ≤ (66 * (r : ℤ) + 129 * (g : ℤ) + 25 * (b : ℤ) + 128) / 256 + 16 := by
    omega
  have hY2 : (66 * (r : ℤ) + 129 * (g : ℤ) + 25 * (b : ℤ) + 128) / 256 + 16 < 256 := by
    omega
  have hU1 : (0 : ℤ) ≤ (-38 * (r : ℤ) - 74 * (g : ℤ) + 112 * (b : ℤ) + 128) / 256 + 128 := by
    omega
  have hU2 : (-38 * (r : ℤ) - 74 * (g : ℤ) + 112 * (b : ℤ) + 128) / 256 + 128 < 256 := by
    omega
  have hV1 : (0 : ℤ) ≤ (112 * (r : ℤ) - 94 * (g : ℤ) - 18 * (b : ℤ)) / 256 + 128 := by
    omega
  have hV2 : (112 * (r : ℤ) - 94 * (g : ℤ) - 18 * (b : ℤ)) / 256 + 128 < 256 := by
    omega
  rw [cast_mod_toNat _ hY1 hY2, cast_mod_toNat _ hU1 hU2, cast_mod_toNat _ hV1 hV2]
  omega

theorem chan_le (v x d : ℕ) (hx : x ≤ d) (hd : 0 < d) : v * x / d ≤ v := by
  calc v * x / d ≤ v * d / d := Nat.div_le_div_right (Nat.mul_le_mul_left v hx)
  _ = v := Nat.mul_div_cancel v hd

/-! ## The HSV round trip (for C5): arm evaluation lemmas

One lemma per arm of the `match` in `hsv_to_rgb`, with the final `% 256`
casts discharged (every output channel is `≤ v ≤ 255`). -/

theorem hsv_to_rgb_arm1 (h s v : ℕ) (hs : s ≠ 0) (hv : v ≤ 255)
    (hm : h * 6 / 255 = 1) :
    hsv_to_rgb h s v =
      (v * (255 * 255 - s * (h * 6 % 255)) / (255 * 255), v,
       v * (255 - s) / 255) := by
  unfold hsv_to_rgb
  rw [if_neg hs]
  simp only []
  rw [hm]
  have c2 := chan_le v (255 * 255 - s * (h * 6 % 255)) (255 * 255)
    (Nat.sub_le _ _) (by norm_num)
  have c1 := chan_le v (255 - s) 255 (Nat.sub_le _ _) (by norm_num)
  rw [if_pos rfl]
  simp only []
  rw [Nat.mod_eq_of_lt (show v * (255 * 255 - s * (h * 6 % 255)) / (255 * 255) < 256 by omega),
    Nat.mod_eq_of_lt (show v < 256 by omega),
    Nat.mod_eq_of_lt (show v * (255 - s) / 255 < 256 by omega)]

theorem hsv_to_rgb_arm2 (h s v : ℕ) (hs : s ≠ 0) (hv : v ≤ 255)
    (hm : h * 6 / 255 = 2) :
    hsv_to_rgb h s v =
      (v * (255 - s) / 255, v,
       v * (255 * 255 - s * (255 - h * 6 % 255)) / (255 * 255)) := by
  unfold hsv_to_rgb
  rw [if_neg hs]
  simp only []
  rw [hm]
  have c2 := chan_le v (255 * 255 - s * (255 - h * 6 % 255)) (255 * 255)
    (Nat.sub_le _ _) (by norm_num)
  have c1 := chan_le v (255 - s) 255 (Nat.sub_le _ _) (by norm_num)
  rw [if_neg (by norm_num), if_pos rfl]
  simp only []
  rw [Nat.mod_eq_of_lt (show v * (255 - s) / 255 < 256 by omega),
    Nat.mod_eq_of_lt (show v < 256 by omega),
    Nat.mod_eq_of_lt (show v * (255 * 255 - s * (255 - h * 6 % 255)) / (255 * 255) < 256 by omega)]

theorem hsv_to_rgb_arm3 (h s v : ℕ) (hs : s ≠ 0) (hv : v ≤ 255)
    (hm : h * 6 / 255 = 3) :
    hsv_to_rgb h s v =
      (v * (255 - s) / 255, v * (255 * 255 - s * (h * 6 % 255)) / (255 * 255),
       v) := by
  unfold hsv_to_rgb
  rw [if_neg hs]
  simp only []
  rw [hm]
  have c2 := chan_le v (255 * 255 - s * (h * 6 % 255)) (255 * 255)
    (Nat.sub_le _ _) (by norm_num)
  have c1 := chan_le v (255 - s) 255 (Nat.sub_le _ _) (by norm_num)
  rw [if_neg (by norm_num), if_neg (by norm_num), if_pos rfl]
  simp only []
  rw [Nat.mod_eq_of_lt (show v * (255 - s) / 255 < 256 by omega),
    Nat.mod_eq_of_lt (show v * (255 * 255 - s * (h * 6 % 255)) / (255 * 255) < 256 by omega),
    Nat.mod_eq_of_lt (show v < 256 by omega)]

theorem hsv_to_rgb_arm4 (h s v : ℕ) (hs : s ≠ 0) (hv : v ≤ 255)
    (hm : h * 6 / 255 = 4) :
    hsv_to_rgb h s v =
      (v * (255 * 255 - s * (255 - h * 6 % 255)) / (255 * 255),
       v * (255 - s) / 255, v) := by
  unfold hsv_to_rgb
  rw [if_neg hs]
  simp only []
  rw [hm]
  have c2 := chan_le v (255 * 255 - s * (255 - h * 6 % 255)) (255 * 255)
    (Nat.sub_le _ _) (by norm_num)
  have c1 := chan_le v (255 - s) 255 (Nat.sub_le _ _) (by norm_num)
  rw [if_neg (by norm_num), if_neg (by norm_num), if_neg (by norm_num), if_pos rfl]
  simp only []
  rw [Nat.mod_eq_of_lt (show v * (255 * 255 - s * (255 - h * 6 % 255)) / (255 * 255) < 256 by omega),
    Nat.mod_eq_of_lt (show v * (255 - s) / 255 < 256 by omega),
    Nat.mod_eq_of_lt (show v < 256 by omega)]

theorem hsv_to_rgb_arm5 (h s v : ℕ) (hs : s ≠ 0) (hv : v ≤ 255)
    (hm : h * 6 / 255 = 5) :
    hsv_to_rgb h s v =
      (v, v * (255 - s) / 255,
       v * (255 * 255 - s * (h * 6 % 255)) / (255 * 255)) := by
  unfold hsv_to_rgb
  rw [if_neg hs]
  simp only []
  rw [hm]
  have c2 := chan_le v (255 * 255 - s * (h * 6 % 255)) (255 * 255)
    (Nat.sub_le _ _) (by norm_num)
  have c1 := chan_le v (255 - s) 255 (Nat.sub_le _ _) (by norm_num)
  rw [if_neg (by norm_num), if_neg (by norm_num), if_neg (by norm_num),
    if_neg (by norm_num), if_pos rfl]
  simp only []
  rw [Nat.mod_eq_of_lt (show v < 256 by omega),
    Nat.mod_eq_of_lt (show v * (255 - s) / 255 < 256 by omega),
    Nat.mod_eq_of_lt (show v * (255 * 255 - s * (h * 6 % 255)) / (255 * 255) < 256 by omega)]

theorem hsv_to_rgb_arm0 (h s v : ℕ) (hs : s ≠ 0) (hv : v ≤ 255)
    (hm1 : h * 6 / 255 ≠ 1) (hm2 : h * 6 / 255 ≠ 2) (hm3 : h * 6 / 255 ≠ 3)
    (hm4 : h * 6 / 255 ≠ 4) (hm5 : h * 6 / 255 ≠ 5) :
    hsv_to_rgb h s v =
      (v, v * (255 * 255 - s * (255 - h * 6 % 255)) / (255 * 255),
       v * (255 - s) / 255) := by
  unfold hsv_to_rgb
  rw [if_neg hs]
  simp only []
  rw [if_neg hm1, if_neg hm2, if_neg hm3, if_neg hm4, if_neg hm5]
  have c2 := chan_le v (255 * 255 - s * (255 - h * 6 % 255)) (255 * 255)
    (Nat.sub_le _ _) (by norm_num)
  have c1 := chan_le v (255 - s) 255 (Nat.sub_le _ _) (by norm_num)
  simp only []
  rw [Nat.mod_eq_of_lt (show v < 256 by omega),
    Nat.mod_eq_of_lt (show v * (255 * 255 - s * (255 - h * 6 % 255)) / (255 * 255) < 256 by omega),
    Nat.mod_eq_of_lt (show v * (255 - s) / 255 < 256 by omega)]

/-! ## The HSV round trip: the two channel-reconstruction core lemmas

In every arm of `hsv_to_rgb` the three output channels are: the untouched
channel `v` (exact!), a channel `v * (255 - s) / 255` which reconstructs
the minimum channel exactly (`core_mn`), and a "middle" channel
`v * (255² - s·X) / 255²` whose error is governed by how far `n·X` is
from `255·(v - mid)`; the hue quantization (`/6` plus the integer
division by `n`) perturbs `n·X` by at most `6n ≤ 1530`, giving the `±6`
bound (`core_mid`). -/

theorem s_le_255 (v q : ℕ) (hv : 0 < v) (hq : q ≤ v) : q * 255 / v ≤ 255 := by
  calc q * 255 / v ≤ v * 255 / v :=
    Nat.div_le_div_right (Nat.mul_le_mul_right 255 hq)
  _ = 255 := by rw [Nat.mul_comm]; exact Nat.mul_div_cancel 255 hv

theorem core_mn (v n : ℕ) (hv : 0 < v) (hv255 : v ≤ 255) (hn : n ≤ v) :
    v * (255 - n * 255 / v) / 255 = v - n := by
  set s := n * 255 / v with hsdef
  set a := n * 255 % v with hadef
  have hdm : v * s + a = n * 255 := Nat.div_add_mod _ _
  have hav : a < v := Nat.mod_lt _ hv
  have hs255 : s ≤ 255 := s_le_255 v n hv hn
  have hZ : (v : ℤ) * s + a = (n : ℤ) * 255 := by exact_mod_cast hdm
  have hnum : v * (255 - s) = 255 * (v - n) + a := by
    zify [hs255, hn]
    linear_combination -hZ
  rw [hnum]
  omega

theorem core_mid (v n mid X : ℕ) (hv : 0 < v) (hv255 : v ≤ 255)
    (hn : n ≤ v) (hX : X ≤ 255)
    (hD1 : (n : ℤ) * X - 255 * ((v : ℤ) - mid) ≤ 1530)
    (hD2 : -1530 ≤ (n : ℤ) * X - 255 * ((v : ℤ) - mid)) :
    ((v * (255 * 255 - n * 255 / v * X) / (255 * 255) : ℕ) : ℤ) - mid ≤ 6 ∧
    (mid : ℤ) - ((v * (255 * 255 - n * 255 / v * X) / (255 * 255) : ℕ) : ℤ) ≤ 6 := by
  set s := n * 255 / v with hsdef
  set a := n * 255 % v with hadef
  have hdm : v * s + a = n * 255 := Nat.div_add_mod _ _
  have hav : a < v := Nat.mod_lt _ hv
  have hs255 : s ≤ 255 := s_le_255 v n hv hn
  have hsX : s * X ≤ 255 * 255 := Nat.mul_le_mul hs255 hX
  have hZ : (v : ℤ) * s + a = (n : ℤ) * 255 := by exact_mod_cast hdm
  have hnumZ : ((v * (255 * 255 - s * X) : ℕ) : ℤ) =
      65025 * mid - 255 * ((n : ℤ) * X - 255 * ((v : ℤ) - mid)) + (a : ℤ) * X := by
    push_cast [hsX]
    linear_combination (-(X : ℤ)) * hZ
  have haX : (a : ℤ) * X ≤ 64770 := by
    have h1 : a * X ≤ 254 * 255 := Nat.mul_le_mul (by omega) hX
    exact_mod_cast h1
  have haX0 : (0 : ℤ) ≤ (a : ℤ) * X := by positivity
  have hlow : 65025 * (mid : ℤ) - 390150 ≤ ((v * (255 * 255 - s * X) : ℕ) : ℤ) := by
    rw [hnumZ]
    linarith
  have hhigh : ((v * (255 * 255 - s * X) : ℕ) : ℤ) ≤ 65025 * (mid : ℤ) + 454920 := by
    rw [hnumZ]
    linarith
  omega

/-! ## The HSV round trip: case analysis

`rgb_to_hsv` has four non-trivial branches (maximum channel and, for the
red maximum, the sign of `g - b`); each lands in a small set of sectors
of `hsv_to_rgb`.  One evaluation lemma and one round-trip lemma per
branch. -/

theorem caseC4_rb (r g b x y cg cb : ℤ) (hr : r ≤ 255) (hg0 : 0 ≤ g)
    (hZx : (r - g) * x + cg = g * 255) (hZy : (r - g) * y + cb = b * 255)
    (hcg : cg < r - g) (hcb0 : 0 ≤ cb) ( _hrg0 : 0 < r - g)
    (h2 : (r - g) * 251 ≤ (r - g) * (y - x)) :
    r - b ≤ 5 := by
  nlinarith [hZx, hZy]

theorem caseC5_D (r g b x y cg cb rho f : ℤ) (hr : r ≤ 255) (hg0 : 0 ≤ g)
    (hZx : (r - g) * x + cg = g * 255) (hZy : (r - g) * y + cb = b * 255)
    (hcg0 : 0 ≤ cg) (hcg : cg < r - g) (hcb0 : 0 ≤ cb) (hcb : cb < r - g)
    (hrg0 : 0 < r - g) (hrho0 : 0 ≤ rho) (hrho : rho < 6)
    (hf : f = x - y + 255 - rho) :
    (r - g) * f - 255 * (r - b) ≤ 1530 ∧ -1530 ≤ (r - g) * f - 255 * (r - b) := by
  have hnf : (r - g) * f = 255 * (r - b) + (cb - cg - (r - g) * rho) := by
    rw [hf]
    linear_combination hZx - hZy
  have hrg255 : r - g ≤ 255 := by omega
  have h5 : (r - g) * rho ≤ (r - g) * 5 :=
    mul_le_mul_of_nonneg_left (by omega) (by omega)
  have h5' : (r - g) * 5 ≤ 255 * 5 := by omega
  have h0 : 0 ≤ (r - g) * rho := mul_nonneg (by omega) hrho0
  constructor <;> linarith

theorem rgb_to_hsv_case_B (r g b : ℕ) (hr : r ≤ 255) (hgr : g ≤ r)
    ( _hbr : b ≤ r) (hbg : b ≤ g) (hne : b < r) :
    rgb_to_hsv r g b = ((g - b) * 255 / (r - b) / 6, (r - b) * 255 / r, r) := by
  unfold rgb_to_hsv
  simp only []
  have hmx : max r (max g b) = r := by omega
  have hmn : min r (min g b) = b := by omega
  rw [hmx, hmn]
  rw [if_neg (show ¬(r = 0) by omega), if_neg (show ¬(r - b = 0) by omega),
    if_pos rfl, if_neg (show ¬(g < b) by omega)]
  have hw : (g - b) * 255 / (r - b) ≤ 255 := s_le_255 (r - b) (g - b) (by omega) (by omega)
  have hs : (r - b) * 255 / r ≤ 255 := s_le_255 r (r - b) (by omega) (by omega)
  rw [Nat.mod_eq_of_lt (show (g - b) * 255 / (r - b) / 6 < 256 by omega),
    Nat.mod_eq_of_lt (show (r - b) * 255 / r < 256 by omega),
    Nat.mod_eq_of_lt (show r < 256 by omega)]

set_option maxHeartbeats 1000000 in
theorem roundtrip_case_B (r g b : ℕ) (hr : r ≤ 255) (hgr : g ≤ r)
    (hbr : b ≤ r) (hbg : b ≤ g) (hne : b < r) :
    (((hsv_to_rgb (rgb_to_hsv r g b).1 (rgb_to_hsv r g b).2.1
        (rgb_to_hsv r g b).2.2).1 : ℤ) - r).natAbs ≤ 6 ∧
    (((hsv_to_rgb (rgb_to_hsv r g b).1 (rgb_to_hsv r g b).2.1
        (rgb_to_hsv r g b).2.2).2.1 : ℤ) - g).natAbs ≤ 6 ∧
    (((hsv_to_rgb (rgb_to_hsv r g b).1 (rgb_to_hsv r g b).2.1
        (rgb_to_hsv r g b).2.2).2.2 : ℤ) - b).natAbs ≤ 6 := by
  rw [rgb_to_hsv_case_B r g b hr hgr hbr hbg hne]
  dsimp only
  have hwle : (g - b) * 255 / (r - b) ≤ 255 :=
    s_le_255 (r - b) (g - b) (by omega) (by omega)
  have hs1 : 1 ≤ (r - b) * 255 / r := by
    rw [Nat.le_div_iff_mul_le (by omega : 0 < r)]
    omega
  rw [hsv_to_rgb_arm0 _ _ _ (by omega) hr (by omega) (by omega) (by omega)
    (by omega) (by omega)]
  dsimp only
  refine ⟨by simp, ?_, ?_⟩
  · rw [Nat.mod_eq_of_lt (show (g - b) * 255 / (r - b) / 6 * 6 < 255 by omega)]
    set w := (g - b) * 255 / (r - b) with hwdef
    set c := (g - b) * 255 % (r - b) with hcdef
    set q := w / 6 with hqdef
    set rho := w % 6 with hrhodef
    have hdm1 : (r - b) * w + c = (g - b) * 255 := Nat.div_add_mod _ _
    have hdm2 : 6 * q + rho = w := Nat.div_add_mod _ _
    have hc : c < r - b := Nat.mod_lt _ (by omega)
    have hrho : rho < 6 := Nat.mod_lt _ (by norm_num)
    have hq6 : q * 6 ≤ 255 := by omega
    have hZ1 : ((r : ℤ) - b) * w + c = ((g : ℤ) - b) * 255 := by
      zify [hbg, show b ≤ r by omega] at hdm1
      linarith
    have hZ2 : 6 * (q : ℤ) + rho = w := by exact_mod_cast hdm2
    have hcore := core_mid r (r - b) g (255 - q * 6)
      (by omega) hr (by omega) (by omega)
      (by
        push_cast [show b ≤ r by omega, hq6]
        have hcz : (c : ℤ) ≤ 254 := by exact_mod_cast (show c ≤ 254 by omega)
        nlinarith [hZ1, hZ2])
      (by
        push_cast [show b ≤ r by omega, hq6]
        have hcz : (0 : ℤ) ≤ (c : ℤ) := by positivity
        nlinarith [hZ1, hZ2])
    omega
  · rw [core_mn r (r - b) (by omega) hr (by omega)]
    have hsub : r - (r - b) = b := by omega
    rw [hsub]
    simp

theorem rgb_to_hsv_case_C (r g b : ℕ) (hr : r ≤ 255) (hgr : g ≤ r)
    (hbr : b ≤ r) (hgb : g < b) :
    rgb_to_hsv r g b =
      ((6 * 255 + g * 255 / (r - g) - b * 255 / (r - g)) / 6,
       (r - g) * 255 / r, r) := by
  unfold rgb_to_hsv
  simp only []
  have hmx : max r (max g b) = r := by omega
  have hmn : min r (min g b) = g := by omega
  rw [hmx, hmn]
  rw [if_neg (show ¬(r = 0) by omega), if_neg (show ¬(r - g = 0) by omega),
    if_pos rfl, if_pos hgb]
  have hx : g * 255 / (r - g) ≤ b * 255 / (r - g) :=
    Nat.div_le_div_right (Nat.mul_le_mul_right 255 (by omega))
  have hs : (r - g) * 255 / r ≤ 255 := s_le_255 r (r - g) (by omega) (by omega)
  rw [Nat.mod_eq_of_lt (show (6 * 255 + g * 255 / (r - g) - b * 255 / (r - g)) / 6 < 256 by omega),
    Nat.mod_eq_of_lt (show (r - g) * 255 / r < 256 by omega),
    Nat.mod_eq_of_lt (show r < 256 by omega)]

set_option maxHeartbeats 1000000 in
theorem roundtrip_case_C (r g b : ℕ) (hr : r ≤ 255) (hgr : g ≤ r)
    (hbr : b ≤ r) (hgb : g < b) :
    (((hsv_to_rgb (rgb_to_hsv r g b).1 (rgb_to_hsv r g b).2.1
        (rgb_to_hsv r g b).2.2).1 : ℤ) - r).natAbs ≤ 6 ∧
    (((hsv_to_rgb (rgb_to_hsv r g b).1 (rgb_to_hsv r g b).2.1
        (rgb_to_hsv r g b).2.2).2.1 : ℤ) - g).natAbs ≤ 6 ∧
    (((hsv_to_rgb (rgb_to_hsv r g b).1 (rgb_to_hsv r g b).2.1
        (rgb_to_hsv r g b).2.2).2.2 : ℤ) - b).natAbs ≤ 6 := by
  rw [rgb_to_hsv_case_C r g b hr hgr hbr hgb]
  dsimp only
  set x := g * 255 / (r - g) with hxdef
  set y := b * 255 / (r - g) with hydef
  set cg := g * 255 % (r - g) with hcgdef
  set cb := b * 255 % (r - g) with hcbdef
  have hdx : (r - g) * x + cg = g * 255 := Nat.div_add_mod _ _
  have hdy : (r - g) * y + cb = b * 255 := Nat.div_add_mod _ _
  have hcg : cg < r - g := Nat.mod_lt _ (by omega)
  have hcb : cb < r - g := Nat.mod_lt _ (by omega)
  have hxy : x ≤ y := Nat.div_le_div_right (Nat.mul_le_mul_right 255 (by omega))
  clear_value x y cg cb
  clear hxdef hydef hcgdef hcbdef
  have hZx : ((r : ℤ) - g) * x + cg = (g : ℤ) * 255 := by
    zify [show g ≤ r by omega] at hdx
    linarith
  have hZy : ((r : ℤ) - g) * y + cb = (b : ℤ) * 255 := by
    zify [show g ≤ r by omega] at hdy
    linarith
  have hg0 : (0 : ℤ) ≤ (g : ℤ) := by positivity
  have hrz : (r : ℤ) ≤ 255 := by exact_mod_cast hr
  have hrg0 : (0 : ℤ) < (r : ℤ) - g := by
    have : (g : ℤ) < r := by exact_mod_cast (show g < r by omega)
    omega
  have hcgz : (cg : ℤ) < (r : ℤ) - g := by
    zify [show g ≤ r by omega] at hcg
    linarith
  have hcbz : (cb : ℤ) < (r : ℤ) - g := by
    zify [show g ≤ r by omega] at hcb
    linarith
  have hcgz0 : (0 : ℤ) ≤ (cg : ℤ) := by positivity
  have hcbz0 : (0 : ℤ) ≤ (cb : ℤ) := by positivity
  have hyx : y ≤ x + 256 := by
    by_contra hcon
    push_neg at hcon
    have h1 : (x : ℤ) + 257 ≤ y := by exact_mod_cast hcon
    nlinarith [hZx, hZy, mul_le_mul_of_nonneg_left h1 (le_of_lt hrg0)]
  set H := 6 * 255 + x - y with hHdef
  have hH : 1274 ≤ H ∧ H ≤ 1530 := by omega
  set h := H / 6 with hhdef
  have hdH : 6 * h + H % 6 = H := Nat.div_add_mod _ _
  have hrho : H % 6 < 6 := Nat.mod_lt _ (by norm_num)
  have hh6 : 1272 ≤ h * 6 ∧ h * 6 ≤ 1530 ∧ H - 5 ≤ h * 6 ∧ h * 6 ≤ H := by omega
  have hs1 : 1 ≤ (r - g) * 255 / r := by
    rw [Nat.le_div_iff_mul_le (by omega : 0 < r)]
    omega
  have hm46 : h * 6 / 255 = 4 ∨ h * 6 / 255 = 5 ∨ h * 6 / 255 = 6 := by omega
  have hm6 : h * 6 / 255 ≠ 6 := by
    intro h6eq
    have hxeqy : x = y := by omega
    have hZ6 : (255 : ℤ) * ((b : ℤ) - g) = cb - cg := by
      rw [hxeqy] at hZx
      linarith
    have hbg1 : (1 : ℤ) ≤ (b : ℤ) - g := by
      have : (g : ℤ) < b := by exact_mod_cast hgb
      omega
    linarith
  rcases hm46 with hm | hm | hm
  · -- sector 4 (boundary b close to r)
    rw [hsv_to_rgb_arm4 _ _ _ (by omega) hr hm]
    dsimp only
    have hub : h * 6 ≤ 1274 := by omega
    have hf2 : 255 - h * 6 % 255 ≤ 3 := by omega
    have hrb5 : (r : ℤ) - b ≤ 5 := by
      have h1 : (251 : ℤ) ≤ (y : ℤ) - x := by
        exact_mod_cast (show (251 : ℕ) ≤ y - x by omega)
      have h2 : ((r : ℤ) - g) * 251 ≤ ((r : ℤ) - g) * ((y : ℤ) - x) :=
        mul_le_mul_of_nonneg_left h1 (le_of_lt hrg0)
      exact caseC4_rb _ _ _ _ _ _ _ hrz hg0 hZx hZy hcgz hcbz0 hrg0 h2
    have hbz : (b : ℤ) ≤ (r : ℤ) := by exact_mod_cast hbr
    refine ⟨?_, ?_, ?_⟩
    · have hX3 : ((255 - h * 6 % 255 : ℕ) : ℤ) ≤ 3 := by exact_mod_cast hf2
      have hX0 : (0 : ℤ) ≤ ((255 - h * 6 % 255 : ℕ) : ℤ) := by positivity
      have hnA : ((r - g : ℕ) : ℤ) ≤ 255 := by
        exact_mod_cast (show r - g ≤ 255 by omega)
      have hnA0 : (0 : ℤ) ≤ ((r - g : ℕ) : ℤ) := by positivity
      have hp := mul_le_mul hnA hX3 hX0 (by norm_num : (0 : ℤ) ≤ 255)
      have hp0 := mul_nonneg hnA0 hX0
      have hcore := core_mid r (r - g) r (255 - h * 6 % 255)
        (by omega) hr (by omega) (by omega)
        (by linarith) (by linarith)
      omega
    · rw [core_mn r (r - g) (by omega) hr (by omega)]
      have hsub : r - (r - g) = g := by omega
      rw [hsub]
      simp
    · omega
  · -- sector 5 (the main branch)
    rw [hsv_to_rgb_arm5 _ _ _ (by omega) hr hm]
    dsimp only
    have hlb : 1275 ≤ h * 6 := by omega
    refine ⟨by simp, ?_, ?_⟩
    · rw [core_mn r (r - g) (by omega) hr (by omega)]
      have hsub : r - (r - g) = g := by omega
      rw [hsub]
      simp
    · have hfz : ((h * 6 % 255 : ℕ) : ℤ) = (x : ℤ) - y + 255 - ((H % 6 : ℕ) : ℤ) := by
        omega
      have hDpair := caseC5_D (r : ℤ) g b x y cg cb ((H % 6 : ℕ) : ℤ)
        ((h * 6 % 255 : ℕ) : ℤ)
        hrz hg0 hZx hZy hcgz0 hcgz hcbz0 hcbz hrg0 (by positivity)
        (by exact_mod_cast hrho) hfz
      have hcast : ((r - g : ℕ) : ℤ) = (r : ℤ) - g := by omega
      have hcore := core_mid r (r - g) b (h * 6 % 255)
        (by omega) hr (by omega) (show h * 6 % 255 ≤ 255 by omega)
        (by rw [hcast]; exact hDpair.1) (by rw [hcast]; exact hDpair.2)
      omega
  · exact absurd hm hm6

/-! The green-maximum and blue-maximum branches.  Four generic arithmetic
lemmas capture the recurring shapes: a crude `±256` bound between the two
hue quotients, the main-sector and mirror-sector `D`-bounds feeding
`core_mid`, and the "`x ≥ y` forces a channel ordering" step. -/

theorem div_le_div_add_256 (n p q : ℕ) (hn : 0 < n) (hpq : p ≤ q + n) :
    p * 255 / n ≤ q * 255 / n + 256 := by
  have h1 : p * 255 ≤ (q + n) * 255 := Nat.mul_le_mul_right 255 hpq
  have h2 : p * 255 / n ≤ (q * 255 + n * 255) / n :=
    Nat.div_le_div_right (by omega)
  have h3 : (q * 255 + n * 255) / n = q * 255 / n + 255 :=
    Nat.add_mul_div_left _ _ hn
  omega

theorem mainD_generic (v mn p q x y cp cq rho f : ℤ)
    (hv : v ≤ 255) (hmn0 : 0 ≤ mn) (hmnv : mn < v)
    (hZx : (v - mn) * x + cp = p * 255) (hZy : (v - mn) * y + cq = q * 255)
    (hcp0 : 0 ≤ cp) (hcp : cp < v - mn) (hcq0 : 0 ≤ cq) (hcq : cq < v - mn)
    (hrho0 : 0 ≤ rho) (hrho : rho < 6)
    (hf : f = 255 + x - y - rho)
    (hpmn0 : 0 ≤ 255 * (p - mn)) (hpmn : 255 * (p - mn) ≤ 1275) :
    (v - mn) * f - 255 * (v - q) ≤ 1530 ∧
    -1530 ≤ (v - mn) * f - 255 * (v - q) := by
  have hid : (v - mn) * f - 255 * (v - q) =
      255 * (p - mn) + (cq - cp - (v - mn) * rho) := by
    rw [hf]
    linear_combination hZx - hZy
  have h5 : (v - mn) * rho ≤ (v - mn) * 5 :=
    mul_le_mul_of_nonneg_left (by omega) (by omega)
  have h0 : 0 ≤ (v - mn) * rho := mul_nonneg (by omega) hrho0
  constructor <;> rw [hid] <;> [linarith; linarith]

theorem midX_generic (v mn p q mid x y cp cq rho X : ℤ)
    (hv : v ≤ 255) (hmn0 : 0 ≤ mn) (hmnv : mn < v)
    (hZx : (v - mn) * x + cp = p * 255) (hZy : (v - mn) * y + cq = q * 255)
    (hcp0 : 0 ≤ cp) (hcp : cp < v - mn) (hcq0 : 0 ≤ cq) (hcq : cq < v - mn)
    (hrho0 : 0 ≤ rho) (hrho : rho < 6)
    (hX : X = 255 - (x - y - rho))
    (hmid : mid = mn + p - q) :
    (v - mn) * X - 255 * (v - mid) ≤ 1530 ∧
    -1530 ≤ (v - mn) * X - 255 * (v - mid) := by
  have hid : (v - mn) * X - 255 * (v - mid) =
      cp - cq + (v - mn) * rho := by
    rw [hX, hmid]
    linear_combination hZy - hZx
  have h5 : (v - mn) * rho ≤ (v - mn) * 5 :=
    mul_le_mul_of_nonneg_left (by omega) (by omega)
  have h0 : 0 ≤ (v - mn) * rho := mul_nonneg (by omega) hrho0
  constructor <;> rw [hid] <;> [linarith; linarith]

theorem xy_ge_imp (v mn p q x y cp cq : ℤ)
    (hZx : (v - mn) * x + cp = p * 255) (hZy : (v - mn) * y + cq = q * 255)
    (hcp0 : 0 ≤ cp) (hcq : cq < v - mn) (hmnv : mn < v) (hv : v ≤ 255)
    (hmn0 : 0 ≤ mn) (hyx : y ≤ x) : q ≤ p := by
  nlinarith [hZx, hZy,
    mul_le_mul_of_nonneg_left hyx (show (0 : ℤ) ≤ v - mn by omega)]

theorem rgb_to_hsv_case_D (r g b : ℕ) (hg : g ≤ 255) (hrg : r < g)
    (hbg : b ≤ g) :
    rgb_to_hsv r g b =
      ((2 * 255 + b * 255 / (g - min r b) - r * 255 / (g - min r b)) / 6,
       (g - min r b) * 255 / g, g) := by
  unfold rgb_to_hsv
  simp only []
  have hmx : max r (max g b) = g := by omega
  have hmn : min r (min g b) = min r b := by omega
  rw [hmx, hmn]
  rw [if_neg (show ¬(g = 0) by omega), if_neg (show ¬(g - min r b = 0) by omega),
    if_neg (show ¬(g = r) by omega), if_pos rfl]
  have hyx : b * 255 / (g - min r b) ≤ r * 255 / (g - min r b) + 256 :=
    div_le_div_add_256 _ _ _ (by omega) (by omega)
  have hs : (g - min r b) * 255 / g ≤ 255 :=
    s_le_255 g (g - min r b) (by omega) (by omega)
  rw [Nat.mod_eq_of_lt
      (show (2 * 255 + b * 255 / (g - min r b) - r * 255 / (g - min r b)) / 6 < 256 by omega),
    Nat.mod_eq_of_lt (show (g - min r b) * 255 / g < 256 by omega),
    Nat.mod_eq_of_lt (show g < 256 by omega)]

set_option maxHeartbeats 1000000 in
theorem roundtrip_case_D (r g b : ℕ) (hg : g ≤ 255) (hrg : r < g)
    (hbg : b ≤ g) :
    (((hsv_to_rgb (rgb_to_hsv r g b).1 (rgb_to_hsv r g b).2.1
        (rgb_to_hsv r g b).2.2).1 : ℤ) - r).natAbs ≤ 6 ∧
    (((hsv_to_rgb (rgb_to_hsv r g b).1 (rgb_to_hsv r g b).2.1
        (rgb_to_hsv r g b).2.2).2.1 : ℤ) - g).natAbs ≤ 6 ∧
    (((hsv_to_rgb (rgb_to_hsv r g b).1 (rgb_to_hsv r g b).2.1
        (rgb_to_hsv r g b).2.2).2.2 : ℤ) - b).natAbs ≤ 6 := by
  rw [rgb_to_hsv_case_D r g b hg hrg hbg]
  dsimp only
  set mn := min r b with hmndef
  set x := b * 255 / (g - mn) with hxdef
  set y := r * 255 / (g - mn) with hydef
  set cb := b * 255 % (g - mn) with hcbdef
  set cr := r * 255 % (g - mn) with hcrdef
  have hdx : (g - mn) * x + cb = b * 255 := Nat.div_add_mod _ _
  have hdy : (g - mn) * y + cr = r * 255 := Nat.div_add_mod _ _
  have hcb : cb < g - mn := Nat.mod_lt _ (by omega)
  have hcr : cr < g - mn := Nat.mod_lt _ (by omega)
  clear_value x y cb cr
  clear hxdef hydef hcbdef hcrdef
  have hZx : ((g : ℤ) - mn) * x + cb = (b : ℤ) * 255 := by
    zify [show mn ≤ g by omega] at hdx
    linarith
  have hZy : ((g : ℤ) - mn) * y + cr = (r : ℤ) * 255 := by
    zify [show mn ≤ g by omega] at hdy
    linarith
  have hgz : (g : ℤ) ≤ 255 := by exact_mod_cast hg
  have hmn0 : (0 : ℤ) ≤ (mn : ℤ) := by positivity
  have hmnv : (mn : ℤ) < (g : ℤ) := by exact_mod_cast (show mn < g by omega)
  have hcbz : (cb : ℤ) < (g : ℤ) - mn := by
    zify [show mn ≤ g by omega] at hcb
    linarith
  have hcrz : (cr : ℤ) < (g : ℤ) - mn := by
    zify [show mn ≤ g by omega] at hcr
    linarith
  have hcbz0 : (0 : ℤ) ≤ (cb : ℤ) := by positivity
  have hcrz0 : (0 : ℤ) ≤ (cr : ℤ) := by positivity
  have hbrn : (b : ℤ) - r ≤ (g : ℤ) - mn := by
    have h1 : (b : ℤ) ≤ g := by exact_mod_cast hbg
    have h2 : (mn : ℤ) ≤ r := by exact_mod_cast (show mn ≤ r by omega)
    omega
  have hrbn : (r : ℤ) - b ≤ (g : ℤ) - mn := by
    have h1 : (r : ℤ) ≤ g := by exact_mod_cast (le_of_lt hrg)
    have h2 : (mn : ℤ) ≤ b := by exact_mod_cast (show mn ≤ b by omega)
    omega
  have hxy256 : x ≤ y + 256 := by
    by_contra hcon
    push_neg at hcon
    have h1 : (y : ℤ) + 257 ≤ x := by exact_mod_cast hcon
    nlinarith [hZx, hZy, mul_le_mul_of_nonneg_left h1
      (show (0 : ℤ) ≤ (g : ℤ) - mn by omega)]
  have hyx256 : y ≤ x + 256 := by
    by_contra hcon
    push_neg at hcon
    have h1 : (x : ℤ) + 257 ≤ y := by exact_mod_cast hcon
    nlinarith [hZx, hZy, mul_le_mul_of_nonneg_left h1
      (show (0 : ℤ) ≤ (g : ℤ) - mn by omega)]
  set H := 2 * 255 + x - y with hHdef
  set h := H / 6 with hhdef
  have hdH : 6 * h + H % 6 = H := Nat.div_add_mod _ _
  have hrho : H % 6 < 6 := Nat.mod_lt _ (by norm_num)
  have hs1 : 1 ≤ (g - mn) * 255 / g := by
    rw [Nat.le_div_iff_mul_le (show 0 < g by omega)]
    omega
  have hm012 : h * 6 / 255 = 0 ∨ h * 6 / 255 = 1 ∨ h * 6 / 255 = 2 := by omega
  rcases hm012 with hm | hm | hm
  · -- sector 0 (boundary: r is close to g)
    rw [hsv_to_rgb_arm0 _ _ _ (by omega) hg (by omega) (by omega) (by omega)
      (by omega) (by omega)]
    dsimp only
    have h251z : ((g : ℤ) - mn) * 251 ≤ ((g : ℤ) - mn) * ((y : ℤ) - x) := by
      have h1 : (x : ℤ) + 251 ≤ y := by
        exact_mod_cast (show x + 251 ≤ y by omega)
      exact mul_le_mul_of_nonneg_left (by omega) (by omega)
    have hbr : b < r := by
      by_contra hcon
      push_neg at hcon
      have h1 : (r : ℤ) ≤ b := by exact_mod_cast hcon
      nlinarith [hZx, hZy, h251z]
    have hmnb : mn = b := by omega
    have hZx' : ((g : ℤ) - mn) * x + cb = (mn : ℤ) * 255 := by
      have hmnbz : ((mn : ℕ) : ℤ) = (b : ℤ) := by exact_mod_cast hmnb
      linear_combination hZx - 255 * hmnbz
    have hgr5 : (g : ℤ) - r ≤ 5 :=
      caseC4_rb g mn r x y cb cr hgz hmn0 hZx' hZy hcbz hcrz0 (by omega) h251z
    refine ⟨by omega, ?_, ?_⟩
    · have hf6 : 255 - h * 6 % 255 ≤ 6 := by omega
      have hX6 : ((255 - h * 6 % 255 : ℕ) : ℤ) ≤ 6 := by exact_mod_cast hf6
      have hX0 : (0 : ℤ) ≤ ((255 - h * 6 % 255 : ℕ) : ℤ) := by positivity
      have hnA : ((g - mn : ℕ) : ℤ) ≤ 255 := by
        exact_mod_cast (show g - mn ≤ 255 by omega)
      have hnA0 : (0 : ℤ) ≤ ((g - mn : ℕ) : ℤ) := by positivity
      have hp := mul_le_mul hnA hX6 hX0 (by norm_num : (0 : ℤ) ≤ 255)
      have hp0 := mul_nonneg hnA0 hX0
      have hcore := core_mid g (g - mn) g (255 - h * 6 % 255)
        (by omega) hg (by omega) (by omega)
        (by linarith) (by linarith)
      omega
    · rw [core_mn g (g - mn) (by omega) hg (by omega)]
      rw [show g - (g - mn) = b by omega]
      simp
  · -- sector 1 (the main branch for a green maximum)
    rw [hsv_to_rgb_arm1 _ _ _ (by omega) hg hm]
    dsimp only
    have hxy4 : x ≤ y + 4 := by omega
    have hmnlb : (0 : ℤ) ≤ (b : ℤ) - mn := by
      have h1 : (mn : ℤ) ≤ b := by exact_mod_cast (show mn ≤ b by omega)
      omega
    have hbmn : 255 * ((b : ℤ) - mn) ≤ 1275 := by
      rcases (show mn = r ∨ mn = b by omega) with hc | hc
      · have hx4 : (x : ℤ) ≤ (y : ℤ) + 4 := by exact_mod_cast hxy4
        have hprod : ((g : ℤ) - mn) * ((x : ℤ) - y) ≤ ((g : ℤ) - mn) * 4 :=
          mul_le_mul_of_nonneg_left (by omega) (by omega)
        have hmnr : ((mn : ℕ) : ℤ) = (r : ℤ) := by exact_mod_cast hc
        nlinarith [hZx, hZy, hprod]
      · rw [show ((mn : ℕ) : ℤ) = (b : ℤ) by exact_mod_cast hc]
        omega
    refine ⟨?_, by simp, ?_⟩
    · have hfz : ((h * 6 % 255 : ℕ) : ℤ) =
          255 + (x : ℤ) - y - ((H % 6 : ℕ) : ℤ) := by omega
      have hDpair := mainD_generic (g : ℤ) mn b r x y cb cr
        ((H % 6 : ℕ) : ℤ) ((h * 6 % 255 : ℕ) : ℤ)
        hgz hmn0 hmnv hZx hZy hcbz0 hcbz hcrz0 hcrz
        (by positivity) (by exact_mod_cast hrho) hfz (by linarith) hbmn
      have hcast : ((g - mn : ℕ) : ℤ) = (g : ℤ) - mn := by omega
      have hcore := core_mid g (g - mn) r (h * 6 % 255)
        (by omega) hg (by omega) (by omega)
        (by rw [hcast]; exact hDpair.1) (by rw [hcast]; exact hDpair.2)
      omega
    · rw [core_mn g (g - mn) (by omega) hg (by omega)]
      rw [show g - (g - mn) = mn by omega]
      omega
  · -- sector 2 (boundary: r has caught up with b)
    rw [hsv_to_rgb_arm2 _ _ _ (by omega) hg hm]
    dsimp only
    have hyx : y ≤ x := by omega
    have hrb : r ≤ b := by
      have h1 : (y : ℤ) ≤ x := by exact_mod_cast hyx
      have h2 := xy_ge_imp (g : ℤ) mn b r x y cb cr
        hZx hZy hcbz0 hcrz hmnv hgz hmn0 h1
      exact_mod_cast h2
    have hmnr : mn = r := by omega
    refine ⟨?_, by simp, ?_⟩
    · rw [core_mn g (g - mn) (by omega) hg (by omega)]
      rw [show g - (g - mn) = r by omega]
      simp
    · have hXz : ((255 - h * 6 % 255 : ℕ) : ℤ) =
          255 - ((x : ℤ) - y - ((H % 6 : ℕ) : ℤ)) := by omega
      have hDpair := midX_generic (g : ℤ) mn b r b x y cb cr
        ((H % 6 : ℕ) : ℤ) ((255 - h * 6 % 255 : ℕ) : ℤ)
        hgz hmn0 hmnv hZx hZy hcbz0 hcbz hcrz0 hcrz
        (by positivity) (by exact_mod_cast hrho) hXz (by omega)
      have hcast : ((g - mn : ℕ) : ℤ) = (g : ℤ) - mn := by omega
      have hcore := core_mid g (g - mn) b (255 - h * 6 % 255)
        (by omega) hg (by omega) (by omega)
        (by rw [hcast]; exact hDpair.1) (by rw [hcast]; exact hDpair.2)
      omega

theorem rgb_to_hsv_case_E (r g b : ℕ) (hb : b ≤ 255) (hrb : r < b)
    (hgb : g < b) :
    rgb_to_hsv r g b =
      ((4 * 255 + r * 255 / (b - min r g) - g * 255 / (b - min r g)) / 6,
       (b - min r g) * 255 / b, b) := by
  unfold rgb_to_hsv
  simp only []
  have hmx : max r (max g b) = b := by omega
  have hmn : min r (min g b) = min r g := by omega
  rw [hmx, hmn]
  rw [if_neg (show ¬(b = 0) by omega), if_neg (show ¬(b - min r g = 0) by omega),
    if_neg (show ¬(b = r) by omega), if_neg (show ¬(b = g) by omega)]
  have hyx : r * 255 / (b - min r g) ≤ g * 255 / (b - min r g) + 256 :=
    div_le_div_add_256 _ _ _ (by omega) (by omega)
  have hs : (b - min r g) * 255 / b ≤ 255 :=
    s_le_255 b (b - min r g) (by omega) (by omega)
  rw [Nat.mod_eq_of_lt
      (show (4 * 255 + r * 255 / (b - min r g) - g * 255 / (b - min r g)) / 6 < 256 by omega),
    Nat.mod_eq_of_lt (show (b - min r g) * 255 / b < 256 by omega),
    Nat.mod_eq_of_lt (show b < 256 by omega)]

set_option maxHeartbeats 1000000 in
theorem roundtrip_case_E (r g b : ℕ) (hb : b ≤ 255) (hrb : r < b)
    (hgb : g < b) :
    (((hsv_to_rgb (rgb_to_hsv r g b).1 (rgb_to_hsv r g b).2.1
        (rgb_to_hsv r g b).2.2).1 : ℤ) - r).natAbs ≤ 6 ∧
    (((hsv_to_rgb (rgb_to_hsv r g b).1 (rgb_to_hsv r g b).2.1
        (rgb_to_hsv r g b).2.2).2.1 : ℤ) - g).natAbs ≤ 6 ∧
    (((hsv_to_rgb (rgb_to_hsv r g b).1 (rgb_to_hsv r g b).2.1
        (rgb_to_hsv r g b).2.2).2.2 : ℤ) - b).natAbs ≤ 6 := by
  rw [rgb_to_hsv_case_E r g b hb hrb hgb]
  dsimp only
  set mn := min r g with hmndef
  set x := r * 255 / (b - mn) with hxdef
  set y := g * 255 / (b - mn) with hydef
  set cr := r * 255 % (b - mn) with hcrdef
  set cg := g * 255 % (b - mn) with hcgdef
  have hdx : (b - mn) * x + cr = r * 255 := Nat.div_add_mod _ _
  have hdy : (b - mn) * y + cg = g * 255 := Nat.div_add_mod _ _
  have hcr : cr < b - mn := Nat.mod_lt _ (by omega)
  have hcg : cg < b - mn := Nat.mod_lt _ (by omega)
  clear_value x y cr cg
  clear hxdef hydef hcrdef hcgdef
  have hZx : ((b : ℤ) - mn) * x + cr = (r : ℤ) * 255 := by
    zify [show mn ≤ b by omega] at hdx
    linarith
  have hZy : ((b : ℤ) - mn) * y + cg = (g : ℤ) * 255 := by
    zify [show mn ≤ b by omega] at hdy
    linarith
  have hbz : (b : ℤ) ≤ 255 := by exact_mod_cast hb
  have hmn0 : (0 : ℤ) ≤ (mn : ℤ) := by positivity
  have hmnv : (mn : ℤ) < (b : ℤ) := by exact_mod_cast (show mn < b by omega)
  have hcrz : (cr : ℤ) < (b : ℤ) - mn := by
    zify [show mn ≤ b by omega] at hcr
    linarith
  have hcgz : (cg : ℤ) < (b : ℤ) - mn := by
    zify [show mn ≤ b by omega] at hcg
    linarith
  have hcrz0 : (0 : ℤ) ≤ (cr : ℤ) := by positivity
  have hcgz0 : (0 : ℤ) ≤ (cg : ℤ) := by positivity
  have hrgn : (r : ℤ) - g ≤ (b : ℤ) - mn := by
    have h1 : (r : ℤ) ≤ b := by exact_mod_cast (le_of_lt hrb)
    have h2 : (mn : ℤ) ≤ g := by exact_mod_cast (show mn ≤ g by omega)
    omega
  have hgrn : (g : ℤ) - r ≤ (b : ℤ) - mn := by
    have h1 : (g : ℤ) ≤ b := by exact_mod_cast (le_of_lt hgb)
    have h2 : (mn : ℤ) ≤ r := by exact_mod_cast (show mn ≤ r by omega)
    omega
  have hxy256 : x ≤ y + 256 := by
    by_contra hcon
    push_neg at hcon
    have h1 : (y : ℤ) + 257 ≤ x := by exact_mod_cast hcon
    nlinarith [hZx, hZy, mul_le_mul_of_nonneg_left h1
      (show (0 : ℤ) ≤ (b : ℤ) - mn by omega)]
  have hyx256 : y ≤ x + 256 := by
    by_contra hcon
    push_neg at hcon
    have h1 : (x : ℤ) + 257 ≤ y := by exact_mod_cast hcon
    nlinarith [hZx, hZy, mul_le_mul_of_nonneg_left h1
      (show (0 : ℤ) ≤ (b : ℤ) - mn by omega)]
  set H := 4 * 255 + x - y with hHdef
  set h := H / 6 with hhdef
  have hdH : 6 * h + H % 6 = H := Nat.div_add_mod _ _
  have hrho : H % 6 < 6 := Nat.mod_lt _ (by norm_num)
  have hs1 : 1 ≤ (b - mn) * 255 / b := by
    rw [Nat.le_div_iff_mul_le (show 0 < b by omega)]
    omega
  have hm234 : h * 6 / 255 = 2 ∨ h * 6 / 255 = 3 ∨ h * 6 / 255 = 4 := by omega
  rcases hm234 with hm | hm | hm
  · -- sector 2 (boundary: g is close to b)
    rw [hsv_to_rgb_arm2 _ _ _ (by omega) hb hm]
    dsimp only
    have h251z : ((b : ℤ) - mn) * 251 ≤ ((b : ℤ) - mn) * ((y : ℤ) - x) := by
      have h1 : (x : ℤ) + 251 ≤ y := by
        exact_mod_cast (show x + 251 ≤ y by omega)
      exact mul_le_mul_of_nonneg_left (by omega) (by omega)
    have hgr : r < g := by
      by_contra hcon
      push_neg at hcon
      have h1 : (g : ℤ) ≤ r := by exact_mod_cast hcon
      nlinarith [hZx, hZy, h251z]
    have hmnr : mn = r := by omega
    have hZx' : ((b : ℤ) - mn) * x + cr = (mn : ℤ) * 255 := by
      have hmnrz : ((mn : ℕ) : ℤ) = (r : ℤ) := by exact_mod_cast hmnr
      linear_combination hZx - 255 * hmnrz
    have hbg5 : (b : ℤ) - g ≤ 5 :=
      caseC4_rb b mn g x y cr cg hbz hmn0 hZx' hZy hcrz hcgz0 (by omega) h251z
    refine ⟨?_, by omega, ?_⟩
    · rw [core_mn b (b - mn) (by omega) hb (by omega)]
      rw [show b - (b - mn) = r by omega]
      simp
    · have hf6 : 255 - h * 6 % 255 ≤ 6 := by omega
      have hX6 : ((255 - h * 6 % 255 : ℕ) : ℤ) ≤ 6 := by exact_mod_cast hf6
      have hX0 : (0 : ℤ) ≤ ((255 - h * 6 % 255 : ℕ) : ℤ) := by positivity
      have hnA : ((b - mn : ℕ) : ℤ) ≤ 255 := by
        exact_mod_cast (show b - mn ≤ 255 by omega)
      have hnA0 : (0 : ℤ) ≤ ((b - mn : ℕ) : ℤ) := by positivity
      have hp := mul_le_mul hnA hX6 hX0 (by norm_num : (0 : ℤ) ≤ 255)
      have hp0 := mul_nonneg hnA0 hX0
      have hcore := core_mid b (b - mn) b (255 - h * 6 % 255)
        (by omega) hb (by omega) (by omega)
        (by linarith) (by linarith)
      omega
  · -- sector 3 (the main branch for a blue maximum)
    rw [hsv_to_rgb_arm3 _ _ _ (by omega) hb hm]
    dsimp only
    have hxy4 : x ≤ y + 4 := by omega
    have hmnlb : (0 : ℤ) ≤ (r : ℤ) - mn := by
      have h1 : (mn : ℤ) ≤ r := by exact_mod_cast (show mn ≤ r by omega)
      omega
    have hrmn : 255 * ((r : ℤ) - mn) ≤ 1275 := by
      rcases (show mn = g ∨ mn = r by omega) with hc | hc
      · have hx4 : (x : ℤ) ≤ (y : ℤ) + 4 := by exact_mod_cast hxy4
        have hprod : ((b : ℤ) - mn) * ((x : ℤ) - y) ≤ ((b : ℤ) - mn) * 4 :=
          mul_le_mul_of_nonneg_left (by omega) (by omega)
        have hmng : ((mn : ℕ) : ℤ) = (g : ℤ) := by exact_mod_cast hc
        nlinarith [hZx, hZy, hprod]
      · rw [show ((mn : ℕ) : ℤ) = (r : ℤ) by exact_mod_cast hc]
        omega
    refine ⟨?_, ?_, by simp⟩
    · rw [core_mn b (b - mn) (by omega) hb (by omega)]
      rw [show b - (b - mn) = mn by omega]
      omega
    · have hfz : ((h * 6 % 255 : ℕ) : ℤ) =
          255 + (x : ℤ) - y - ((H % 6 : ℕ) : ℤ) := by omega
      have hDpair := mainD_generic (b : ℤ) mn r g x y cr cg
        ((H % 6 : ℕ) : ℤ) ((h * 6 % 255 : ℕ) : ℤ)
        hbz hmn0 hmnv hZx hZy hcrz0 hcrz hcgz0 hcgz
        (by positivity) (by exact_mod_cast hrho) hfz (by linarith) hrmn
      have hcast : ((b - mn : ℕ) : ℤ) = (b : ℤ) - mn := by omega
      have hcore := core_mid b (b - mn) g (h * 6 % 255)
        (by omega) hb (by omega) (by omega)
        (by rw [hcast]; exact hDpair.1) (by rw [hcast]; exact hDpair.2)
      omega
  · -- sector 4 (boundary: r has caught up with g)
    rw [hsv_to_rgb_arm4 _ _ _ (by omega) hb hm]
    dsimp only
    have hyx : y ≤ x := by omega
    have hgr : g ≤ r := by
      have h1 : (y : ℤ) ≤ x := by exact_mod_cast hyx
      have h2 := xy_ge_imp (b : ℤ) mn r g x y cr cg
        hZx hZy hcrz0 hcgz hmnv hbz hmn0 h1
      exact_mod_cast h2
    have hmng : mn = g := by omega
    refine ⟨?_, ?_, by simp⟩
    · have hXz : ((255 - h * 6 % 255 : ℕ) : ℤ) =
          255 - ((x : ℤ) - y - ((H % 6 : ℕ) : ℤ)) := by omega
      have hDpair := midX_generic (b : ℤ) mn r g r x y cr cg
        ((H % 6 : ℕ) : ℤ) ((255 - h * 6 % 255 : ℕ) : ℤ)
        hbz hmn0 hmnv hZx hZy hcrz0 hcrz hcgz0 hcgz
        (by positivity) (by exact_mod_cast hrho) hXz (by omega)
      have hcast : ((b - mn : ℕ) : ℤ) = (b : ℤ) - mn := by omega
      have hcore := core_mid b (b - mn) r (255 - h * 6 % 255)
        (by omega) hb (by omega) (by omega)
        (by rw [hcast]; exact hDpair.1) (by rw [hcast]; exact hDpair.2)
      omega
    · rw [core_mn b (b - mn) (by omega) hb (by omega)]
      rw [show b - (b - mn) = g by omega]
      simp

/-- The full HSV round trip: every 8-bit RGB triple comes back within `±6`
per channel.  The case split mirrors the branch order of `rgb_to_hsv`
(`max == r` is tested first, so ties go to the red-maximum branch). -/
theorem hsv_roundtrip_bound (r g b : ℕ) (hr : r ≤ 255) (hg : g ≤ 255)
    (hb : b ≤ 255) :
    (((hsv_to_rgb (rgb_to_hsv r g b).1 (rgb_to_hsv r g b).2.1
        (rgb_to_hsv r g b).2.2).1 : ℤ) - r).natAbs ≤ 6 ∧
    (((hsv_to_rgb (rgb_to_hsv r g b).1 (rgb_to_hsv r g b).2.1
        (rgb_to_hsv r g b).2.2).2.1 : ℤ) - g).natAbs ≤ 6 ∧
    (((hsv_to_rgb (rgb_to_hsv r g b).1 (rgb_to_hsv r g b).2.1
        (rgb_to_hsv r g b).2.2).2.2 : ℤ) - b).natAbs ≤ 6 := by
  by_cases hmr : g ≤ r ∧ b ≤ r
  · by_cases hgb : g < b
    · exact roundtrip_case_C r g b hr hmr.1 hmr.2 hgb
    · by_cases hbr : b < r
      · exact roundtrip_case_B r g b hr hmr.1 hmr.2 (by omega) hbr
      · obtain ⟨h1, h2⟩ : g = r ∧ b = r := by omega
        subst h1
        subst h2
        rw [rgb_to_hsv_gray hr]
        dsimp only
        rw [hsv_to_rgb_s0]
        simp
  · by_cases hmg : r < g ∧ b ≤ g
    · exact roundtrip_case_D r g b hg hmg.1 hmg.2
    · have hE : r < b ∧ g < b := by omega
      exact roundtrip_case_E r g b hb hE.1 hE.2

/-- Every arm of `hsv_to_rgb` leaves at least one channel equal to `v` and
scales the others by factors `≤ 1`, so the maximum output channel is
exactly `v`. -/
theorem hsv_to_rgb_max (h s v : ℕ) (hv : v ≤ 255) :
    max (hsv_to_rgb h s v).1
      (max (hsv_to_rgb h s v).2.1 (hsv_to_rgb h s v).2.2) = v := by
  unfold hsv_to_rgb
  by_cases hs : s = 0
  · rw [if_pos hs]
    simp
  · rw [if_neg hs]
    have c1 : v * (255 - s) / 255 ≤ v := chan_le v _ 255 (by omega) (by norm_num)
    have c2 : v * (255 * 255 - s * (h * 6 % 255)) / (255 * 255) ≤ v :=
      chan_le v _ (255 * 255) (by omega) (by norm_num)
    have c3 : v * (255 * 255 - s * (255 - h * 6 % 255)) / (255 * 255) ≤ v :=
      chan_le v _ (255 * 255) (by omega) (by norm_num)
    simp only []
    split_ifs <;> dsimp only <;> omega

/-- The `v` component computed by `rgb_to_hsv` is the channel maximum. -/
theorem rgb_to_hsv_v (r g b : ℕ) (hr : r ≤ 255) (hg : g ≤ 255)
    (hb : b ≤ 255) : (rgb_to_hsv r g b).2.2 = max r (max g b) := by
  unfold rgb_to_hsv
  simp only []
  exact Nat.mod_eq_of_lt (by omega)

/-- C10: `hsv_to_rgb` returns `v` as its maximum channel for every input
with `v ≤ 255`; consequently, for every curve produced by the pipeline,
the enhanced pixel's brightness `max(R,G,B)` is exactly the curve applied
to the original pixel's brightness. -/
theorem claim_C10_brightness_is_curved (pw : ℚ → ℚ → ℚ) (cw : ℕ → ℚ)
    (h s v r g b : ℕ) (hv : v ≤ 255) (hr : r ≤ 255) (hg : g ≤ 255)
    (hb : b ≤ 255) :
    max (hsv_to_rgb h s v).1
      (max (hsv_to_rgb h s v).2.1 (hsv_to_rgb h s v).2.2) = v ∧
    max (enhancePixel (intensity_transformation_curve pw cw) r g b).1
      (max (enhancePixel (intensity_transformation_curve pw cw) r g b).2.1
        (enhancePixel (intensity_transformation_curve pw cw) r g b).2.2) =
      intensity_transformation_curve pw cw (max r (max g b)) := by
  refine ⟨hsv_to_rgb_max h s v hv, ?_⟩
  unfold enhancePixel
  simp only []
  rw [rgb_to_hsv_v r g b hr hg hb]
  exact hsv_to_rgb_max _ _ _ (roundU8_le_255 _)

/-- C10, closed instance at a concrete pixel and the curve of the
`[10, 20, 30]` pipeline under `powQ`. -/
theorem claim_C10_witness :
    max (hsv_to_rgb 148 170 200).1
      (max (hsv_to_rgb 148 170 200).2.1 (hsv_to_rgb 148 170 200).2.2) = 200 ∧
    max (enhancePixel (intensity_transformation_curve powQ
        (cdf (to_weighting_distribution powQ (1 / 2) (pdf 3 [10, 20, 30])))) 10 20 30).1
      (max (enhancePixel (intensity_transformation_curve powQ
          (cdf (to_weighting_distribution powQ (1 / 2) (pdf 3 [10, 20, 30])))) 10 20 30).2.1
        (enhancePixel (intensity_transformation_curve powQ
          (cdf (to_weighting_distribution powQ (1 / 2) (pdf 3 [10, 20, 30])))) 10 20 30).2.2) =
      intensity_transformation_curve powQ
        (cdf (to_weighting_distribution powQ (1 / 2) (pdf 3 [10, 20, 30])))
        (max 10 (max 20 30)) :=
  claim_C10_brightness_is_curved powQ _ 148 170 200 10 20 30 (by norm_num)
    (by norm_num) (by norm_num) (by norm_num)

/-- **C5.**  For every 8-bit RGB triple `(r, g, b)`, the HSV round trip
`hsv_to_rgb ∘ rgb_to_hsv` returns each channel within `±6` of the
original, and the YUV round trip `yuv_to_rgb ∘ rgb_to_yuv` returns each
channel within `±3`.  (The spec claims `±2` for both; that bound is
false — see the counterexample — and `6`/`3` are attained.) -/
theorem claim_C5_roundtrip_error_bounds (r g b : ℕ)
    (hr : r ≤ 255) (hg : g ≤ 255) (hb : b ≤ 255) :
    ((((hsv_to_rgb (rgb_to_hsv r g b).1 (rgb_to_hsv r g b).2.1
        (rgb_to_hsv r g b).2.2).1 : ℤ) - r).natAbs ≤ 6 ∧
     (((hsv_to_rgb (rgb_to_hsv r g b).1 (rgb_to_hsv r g b).2.1
        (rgb_to_hsv r g b).2.2).2.1 : ℤ) - g).natAbs ≤ 6 ∧
     (((hsv_to_rgb (rgb_to_hsv r g b).1 (rgb_to_hsv r g b).2.1
        (rgb_to_hsv r g b).2.2).2.2 : ℤ) - b).natAbs ≤ 6) ∧
    ((((yuv_to_rgb (rgb_to_yuv r g b).1 (rgb_to_yuv r g b).2.1
        (rgb_to_yuv r g b).2.2).1 : ℤ) - r).natAbs ≤ 3 ∧
     (((yuv_to_rgb (rgb_to_yuv r g b).1 (rgb_to_yuv r g b).2.1
        (rgb_to_yuv r g b).2.2).2.1 : ℤ) - g).natAbs ≤ 3 ∧
     (((yuv_to_rgb (rgb_to_yuv r g b).1 (rgb_to_yuv r g b).2.1
        (rgb_to_yuv r g b).2.2).2.2 : ℤ) - b).natAbs ≤ 3) :=
  ⟨hsv_roundtrip_bound r g b hr hg hb, yuv_roundtrip_bound r g b hr hg hb⟩

/-- C5, closed instance at the triple `(10, 20, 30)`. -/
theorem claim_C5_witness :
    (10 : ℕ) ≤ 255 ∧ (20 : ℕ) ≤ 255 ∧ (30 : ℕ) ≤ 255 ∧
    (((((hsv_to_rgb (rgb_to_hsv 10 20 30).1 (rgb_to_hsv 10 20 30).2.1
        (rgb_to_hsv 10 20 30).2.2).1 : ℤ) - 10).natAbs ≤ 6 ∧
      ((((hsv_to_rgb (rgb_to_hsv 10 20 30).1 (rgb_to_hsv 10 20 30).2.1
        (rgb_to_hsv 10 20 30).2.2).2.1 : ℤ)) - 20).natAbs ≤ 6 ∧
      ((((hsv_to_rgb (rgb_to_hsv 10 20 30).1 (rgb_to_hsv 10 20 30).2.1
        (rgb_to_hsv 10 20 30).2.2).2.2 : ℤ)) - 30).natAbs ≤ 6) ∧
     ((((yuv_to_rgb (rgb_to_yuv 10 20 30).1 (rgb_to_yuv 10 20 30).2.1
        (rgb_to_yuv 10 20 30).2.2).1 : ℤ) - 10).natAbs ≤ 3 ∧
      ((((yuv_to_rgb (rgb_to_yuv 10 20 30).1 (rgb_to_yuv 10 20 30).2.1
        (rgb_to_yuv 10 20 30).2.2).2.1 : ℤ)) - 20).natAbs ≤ 3 ∧
      ((((yuv_to_rgb (rgb_to_yuv 10 20 30).1 (rgb_to_yuv 10 20 30).2.1
        (rgb_to_yuv 10 20 30).2.2).2.2 : ℤ)) - 30).natAbs ≤ 3)) :=
  ⟨by decide, by decide, by decide,
   claim_C5_roundtrip_error_bounds 10 20 30 (by decide) (by decide) (by decide)⟩

/-- C5, the spec's `±2` bound is false: `(0, 214, 146)` comes back from
the HSV round trip with blue channel `140` (error `6 > 2`), and
`(0, 4, 230)` comes back from the YUV round trip with blue channel `227`
(error `3 > 2`). -/
theorem claim_C5_counterexample :
    (((hsv_to_rgb (rgb_to_hsv 0 214 146).1 (rgb_to_hsv 0 214 146).2.1
        (rgb_to_hsv 0 214 146).2.2).2.2 : ℤ) - 146).natAbs = 6 ∧
    (((yuv_to_rgb (rgb_to_yuv 0 4 230).1 (rgb_to_yuv 0 4 230).2.1
        (rgb_to_yuv 0 4 230).2.2).2.2 : ℤ) - 230).natAbs = 3 := by
  decide

end Agcwd
